import Mathlib

/-!
Shallow embedding of the core of the `pygame-asteroids` repository
(entity lifecycle, hook lists, coroutine driver, timer pump, quadtree
broad phase, circle-circle elastic collision resolution), together with
theorems settling the specification claims about it.

Numbers that are Python floats in the source are modelled as exact
rationals (ℚ); the claims under consideration are stated for exact
arithmetic.
-/

/-! ## AABB (src/physics/aabb.py) -/

/-- `AABB` from src/physics/aabb.py: an immutable axis-aligned bounding box. -/
structure AABB where
  x_min : ℚ
  x_max : ℚ
  y_min : ℚ
  y_max : ℚ
deriving DecidableEq

/-- `AABB.intersects` (src/physics/aabb.py:34-40): inclusive overlap test on
both axes, in exactly the source's orientation of the four comparisons. -/
def AABB.intersects (self other : AABB) : Bool :=
  decide (self.x_max ≥ other.x_min) && decide (self.x_min ≤ other.x_max) &&
  decide (self.y_max ≥ other.y_min) && decide (self.y_min ≤ other.y_max)

/-- A box is a real bounding box: its ranges are non-degenerate.  Every AABB
the physics layer builds (`_make_aabb`: center ± radius with non-negative
radius) satisfies this. -/
def AABB.valid (b : AABB) : Prop :=
  b.x_min ≤ b.x_max ∧ b.y_min ≤ b.y_max

instance (b : AABB) : Decidable b.valid := by
  unfold AABB.valid; infer_instance

/-- A point lies inside a box (inclusive). -/
def AABB.contains (b : AABB) (px py : ℚ) : Prop :=
  b.x_min ≤ px ∧ px ≤ b.x_max ∧ b.y_min ≤ py ∧ py ≤ b.y_max

instance (b : AABB) (px py : ℚ) : Decidable (b.contains px py) := by
  unfold AABB.contains; infer_instance

/-- `b` is contained in `c` as a sub-rectangle. -/
def AABB.subBox (b c : AABB) : Prop :=
  c.x_min ≤ b.x_min ∧ b.x_max ≤ c.x_max ∧ c.y_min ≤ b.y_min ∧ b.y_max ≤ c.y_max

/-! ## QuadtreeCollider and _QuadtreeNode (src/physics/quadtree.py) -/

/-- `QuadtreeCollider` (src/physics/quadtree.py:9-16).  The `id` field models
CPython object identity (`id()`), which the source uses both for set
membership and for `order_pair`'s canonical orientation; the opaque `data`
payload is not needed for the claims about the quadtree itself. -/
structure QuadtreeCollider where
  aabb : AABB
  id : Nat
deriving DecidableEq

/-- `_max_load` (src/physics/quadtree.py:23). -/
def maxLoad : Nat := 5

/-- `max_depth` default (src/physics/quadtree.py:20). -/
def maxDepth : Nat := 10

/-- `_QuadtreeNode` (src/physics/quadtree.py:19-26): either a leaf holding a
collider list (`_children is None`) or an internal node with the four
children returned by `make_subtrees`, in the source's order.  The node's
own bounding box is stored in either case.  The depth counter of the source
is represented by the remaining fuel `maxDepth - depth` threaded through
`QNode.add`. -/
inductive QNode where
  | leaf (box : AABB) (colliders : List QuadtreeCollider)
  | node (box : AABB) (c0 c1 c2 c3 : QNode)
deriving DecidableEq

/-- The node's `_aabb`. -/
def QNode.qbox : QNode → AABB
  | .leaf box _ => box
  | .node box _ _ _ _ => box

/-- First box built by `make_subtrees` (src/physics/quadtree.py:33-43). -/
def childBox0 (b : AABB) : AABB :=
  { x_min := (1/2) * (b.x_max + b.x_min), x_max := b.x_max
    y_min := (1/2) * (b.y_max + b.y_min), y_max := b.y_max }

/-- Second box built by `make_subtrees` (src/physics/quadtree.py:44-53). -/
def childBox1 (b : AABB) : AABB :=
  { x_min := b.x_min, x_max := (1/2) * (b.x_max + b.x_min)
    y_min := (1/2) * (b.y_max + b.y_min), y_max := b.y_max }

/-- Third box built by `make_subtrees` (src/physics/quadtree.py:54-63). -/
def childBox2 (b : AABB) : AABB :=
  { x_min := b.x_min, x_max := (1/2) * (b.x_max + b.x_min)
    y_min := b.y_min, y_max := (1/2) * (b.y_max + b.y_min) }

/-- Fourth box built by `make_subtrees` (src/physics/quadtree.py:64-73). -/
def childBox3 (b : AABB) : AABB :=
  { x_min := (1/2) * (b.x_max + b.x_min), x_max := b.x_max
    y_min := b.y_min, y_max := (1/2) * (b.y_max + b.y_min) }

/-- `_QuadtreeNode.intersects` (src/physics/quadtree.py:76-77): note the
source tests `collider.aabb.intersects(node aabb)` in that argument order. -/
def nodeIntersects (k : QNode) (c : QuadtreeCollider) : Bool :=
  c.aabb.intersects k.qbox

/-- One step of `_add_to_children`'s loop body (src/physics/quadtree.py:134-137):
add the collider to the child only if it intersects the child's box.
`adder` is the recursive `add` at the children's depth. -/
def addIfIntersects (adder : QNode → QuadtreeCollider → QNode)
    (c : QuadtreeCollider) (k : QNode) : QNode :=
  if nodeIntersects k c then adder k c else k

/-- One collider's pass over the four children (the inner loop of
`subdivide`, src/physics/quadtree.py:90-92, and `_add_to_children`,
134-137): the collider is offered to every child that intersects it. -/
def distributeStep (adder : QNode → QuadtreeCollider → QNode)
    (c : QuadtreeCollider) (ks : QNode × QNode × QNode × QNode) :
    QNode × QNode × QNode × QNode :=
  (addIfIntersects adder c ks.1, addIfIntersects adder c ks.2.1,
   addIfIntersects adder c ks.2.2.1, addIfIntersects adder c ks.2.2.2)

/-- Distribution loop used by `subdivide` (src/physics/quadtree.py:88-93):
each collider in turn is offered to every child that intersects it. -/
def distribute (adder : QNode → QuadtreeCollider → QNode) :
    List QuadtreeCollider → QNode × QNode × QNode × QNode →
    QNode × QNode × QNode × QNode
  | [], ks => ks
  | c :: cs, ks => distribute adder cs (distributeStep adder c ks)

/-- `_QuadtreeNode.add` (src/physics/quadtree.py:79-83) together with
`_add_to_self` (124-132), `subdivide` (85-93) and `_add_to_children`
(134-137).  `fuel` is `max_depth - depth`; the source's guard
`self._depth < self._max_depth` is `fuel ≠ 0`.

In the subdivide branch the source first redistributes the existing
colliders into the four fresh children and then runs `_add_to_children`
on the new collider, i.e. it distributes `colliders ++ [c]` in order. -/
def QNode.add : Nat → QNode → QuadtreeCollider → QNode
  | 0, .leaf box cs, c => .leaf box (cs ++ [c])
  | 0, .node box k0 k1 k2 k3, _ => .node box k0 k1 k2 k3
  | fuel + 1, .leaf box cs, c =>
      if maxLoad ≤ cs.length + 1 then
        let ks := distribute (QNode.add fuel) (cs ++ [c])
          (QNode.leaf (childBox0 box) [], QNode.leaf (childBox1 box) [],
           QNode.leaf (childBox2 box) [], QNode.leaf (childBox3 box) [])
        .node box ks.1 ks.2.1 ks.2.2.1 ks.2.2.2
      else .leaf box (cs ++ [c])
  | fuel + 1, .node box k0 k1 k2 k3, c =>
      .node box (addIfIntersects (QNode.add fuel) c k0)
        (addIfIntersects (QNode.add fuel) c k1)
        (addIfIntersects (QNode.add fuel) c k2)
        (addIfIntersects (QNode.add fuel) c k3)

/-- `itertools.combinations(colliders, 2)` filtered by AABB intersection, as
in the leaf case of `get_nearby_pairs` (src/physics/quadtree.py:108-112).
This is also exactly the brute-force all-pairs intersection test the spec
compares against. -/
def combPairs : List QuadtreeCollider → List (QuadtreeCollider × QuadtreeCollider)
  | [] => []
  | c :: cs =>
      (cs.filter (fun d => c.aabb.intersects d.aabb)).map (fun d => (c, d)) ++
        combPairs cs

/-- `order_pair` (src/physics/quadtree.py:98-102): orient a pair by object
identity, smaller id first. -/
def orderPair (p : QuadtreeCollider × QuadtreeCollider) :
    QuadtreeCollider × QuadtreeCollider :=
  if p.2.id < p.1.id then (p.2, p.1) else p

/-- `_QuadtreeNode.get_nearby_pairs` (src/physics/quadtree.py:95-112): a leaf
yields its filtered combinations; an internal node unions its children's
pairs after orienting each with `order_pair`.  The Python `set` is modelled
as a duplicate-free list (`dedup` keeps the first occurrence of each
element; the claims only concern membership and duplicate-freedom). -/
def QNode.nearbyPairs : QNode → List (QuadtreeCollider × QuadtreeCollider)
  | .leaf _ cs => combPairs cs
  | .node _ k0 k1 k2 k3 =>
      (k0.nearbyPairs.map orderPair ++ k1.nearbyPairs.map orderPair ++
       k2.nearbyPairs.map orderPair ++ k3.nearbyPairs.map orderPair).dedup

/-- The bounding-box fold of `Quadtree.__init__` (src/physics/quadtree.py:142-152):
the source starts from ±infinity and folds `min`/`max` over all collider
boxes; for a non-empty list this equals folding from the first collider's
box. -/
def rootBox (c : QuadtreeCollider) (cs : List QuadtreeCollider) : AABB :=
  cs.foldl
    (fun b q =>
      { x_min := min b.x_min q.aabb.x_min, x_max := max b.x_max q.aabb.x_max
        y_min := min b.y_min q.aabb.y_min, y_max := max b.y_max q.aabb.y_max })
    c.aabb

/-- `Quadtree.__init__` (src/physics/quadtree.py:141-164): asserts the
collider list is non-empty (modelled as an error result), computes the root
box, then adds every collider to the root node, which starts as an empty
leaf at depth 0 (fuel `maxDepth`). -/
def Quadtree.init (colliders : List QuadtreeCollider) : Except String QNode :=
  match colliders with
  | [] => .error "AssertionError"
  | c :: cs =>
      .ok ((c :: cs).foldl (fun t q => t.add maxDepth q)
        (QNode.leaf (rootBox c cs) []))

/-! ## PhysicsBody and elastic collision resolution
(src/physics/physics.py) -/

/-- The state of a `PhysicsBody` relevant to collision resolution
(src/physics/physics.py:28-61): transform position, velocity and mass. -/
structure Body where
  mass : ℚ
  x : ℚ
  y : ℚ
  vx : ℚ
  vy : ℚ
deriving DecidableEq

/-- `PhysicsBody.add_impulse` (src/physics/physics.py:83-94): adds
`impulse / mass` to the velocity. -/
def Body.addImpulse (b : Body) (ix iy : ℚ) : Body :=
  { b with vx := b.vx + ix / b.mass, vy := b.vy + iy / b.mass }

/-- `PhysicsBody.kinetic_energy` (src/physics/physics.py:96-98). -/
def Body.kineticEnergy (b : Body) : ℚ :=
  (1/2) * b.mass * (b.vx ^ 2 + b.vy ^ 2)

/-- `_CircleColliderMixin._overlaps` (src/physics/physics.py:246-255):
squared center distance strictly below squared sum of radii. -/
def circleOverlaps (b1 : Body) (r1 : ℚ) (b2 : Body) (r2 : ℚ) : Bool :=
  decide ((b1.x - b2.x) ^ 2 + (b1.y - b2.y) ^ 2 < (r1 + r2) * (r1 + r2))

/-- The regular-collider branch of `PhysicsSystem._process_collisions`
(src/physics/physics.py:377-410) for one overlapping pair of bodies:
skip exactly coincident pairs, skip separating pairs, otherwise apply the
elastic impulse `(dx*t, dy*t)` to body1 and its negation to body2 with
`t = -(2 * v_dot_d / mass_divisor / dist_squared)`. -/
def resolvePair (b1 b2 : Body) : Body × Body :=
  let dx := b1.x - b2.x
  let dy := b1.y - b2.y
  let distSquared := dx ^ 2 + dy ^ 2
  if distSquared = 0 then (b1, b2)
  else
    let vx := b1.vx - b2.vx
    let vy := b1.vy - b2.vy
    let vDotD := vx * dx + vy * dy
    if vDotD > 0 then (b1, b2)
    else
      let massDivisor := 1 / b1.mass + 1 / b2.mass
      if massDivisor > 0 then
        let t := -(2 * vDotD / massDivisor / distSquared)
        (b1.addImpulse (dx * t) (dy * t), b2.addImpulse (-(dx * t)) (-(dy * t)))
      else (b1, b2)

/-- The conclusion of the elastic-collision claim for a body pair: the step
equals applying exactly the claimed impulse to each side, and total momentum
and total kinetic energy are unchanged. -/
def ElasticConclusion (b1 b2 : Body) : Prop :=
  let dx := b1.x - b2.x
  let dy := b1.y - b2.y
  let distSquared := dx ^ 2 + dy ^ 2
  let vDotD := (b1.vx - b2.vx) * dx + (b1.vy - b2.vy) * dy
  let t := -(2 * vDotD / (1 / b1.mass + 1 / b2.mass) / distSquared)
  let b1' := (resolvePair b1 b2).1
  let b2' := (resolvePair b1 b2).2
  b1' = b1.addImpulse (dx * t) (dy * t) ∧
  b2' = b2.addImpulse (-(dx * t)) (-(dy * t)) ∧
  b1'.mass * b1'.vx + b2'.mass * b2'.vx = b1.mass * b1.vx + b2.mass * b2.vx ∧
  b1'.mass * b1'.vy + b2'.mass * b2'.vy = b1.mass * b1.vy + b2.mass * b2.vy ∧
  b1'.kineticEnergy + b2'.kineticEnergy = b1.kineticEnergy + b2.kineticEnergy

/-- Whether a quadtree node has subdivided (`_children is not None`). -/
def QNode.isNode : QNode → Bool
  | .leaf _ _ => false
  | .node _ _ _ _ _ => true

/-- `PhysicsSystem.get_overlapping_pairs` (src/physics/physics.py:336-357)
at the broad-phase level: build a quadtree over the system's current circle
colliders and return its nearby pairs.  The construction propagates the
`assert len(colliders) > 0` failure of `Quadtree.__init__`.  (The narrow
phase then filters these candidates by `_overlaps`; the claims settled here
concern the broad phase and the failure behaviour.) -/
def getOverlappingPairs (circleColliders : List QuadtreeCollider) :
    Except String (List (QuadtreeCollider × QuadtreeCollider)) :=
  (Quadtree.init circleColliders).map QNode.nearbyPairs

/-- `PhysicsSystem.update` (src/physics/physics.py:314-321): first
`_process_collisions` (which begins by calling `get_overlapping_pairs`),
then velocity integration.  An assertion failure inside the quadtree
construction aborts the whole update; the integration itself never fails,
so the update's failure behaviour is exactly that of the broad phase. -/
def physicsUpdate (circleColliders : List QuadtreeCollider) :
    Except String Unit :=
  (getOverlappingPairs circleColliders).map (fun _ => ())

/-! ## HookList (src/hook_list.py) -/

/-- What a hook does to the hook list it lives in when it runs.  Hooks are
identified by `Nat` ids; CPython closures are opaque, so the model gives
each hook one of the three behaviours the claim is about: do nothing to the
list, append another hook (`HookList.append`), or call the unsubscriber of
some hook (`list.remove` of its first occurrence, guarded to run once —
within a single call the guard is irrelevant). -/
inductive HookEffect where
  | quiet
  | appendHook (newId : Nat)
  | removeHook (target : Nat)
deriving DecidableEq

/-- Effect of running hook `h` on the listener list, given the environment
`env` assigning behaviours to hook ids. -/
def applyEffect (env : Nat → HookEffect) (listeners : List Nat) (h : Nat) :
    List Nat :=
  match env h with
  | .quiet => listeners
  | .appendHook n => listeners ++ [n]
  | .removeHook t => listeners.erase t

/-- The loop of `HookList.run_hooks` (src/hook_list.py:51-53): iterate over
the snapshot, running each hook against the current listener list.  Returns
the call log (hooks actually invoked, in order) and the final listener
list. -/
def runHooksAux (env : Nat → HookEffect) :
    List Nat → List Nat → List Nat × List Nat
  | [], listeners => ([], listeners)
  | h :: rest, listeners =>
      let result := runHooksAux env rest (applyEffect env listeners h)
      (h :: result.1, result.2)

/-- `HookList.run_hooks` (src/hook_list.py:43-53): snapshot
(`listeners = list(self.__listeners)`) then iterate over the snapshot. -/
def runHooks (env : Nat → HookEffect) (listeners : List Nat) :
    List Nat × List Nat :=
  runHooksAux env listeners listeners

/-! ## Entity destruction (src/game_object.py and src/game_objects.py) -/

/-- The state visible to one entity's destroy path: the owning system's
live set, the entity's `_is_destroyed` flag, and a log written by a
registered destroy hook that inspects the live set — each entry records
whether the entity was still present in the live set when the hook ran. -/
structure EntityWorld where
  live : Finset Nat
  isDestroyed : Bool
  hookLog : List Bool
deriving DecidableEq

/-- `_GameObject.destroy` of src/game_object.py:107-113: if already
destroyed, return; else mark destroyed, `self._discard_self(self)`
(removing the entity from `GameObjectSystem._game_objects`), and only then
run the destroy hooks — so the inspecting hook reads the live set with the
entity already discarded. -/
def gameObjectDestroy (w : EntityWorld) (eid : Nat) : EntityWorld :=
  if w.isDestroyed then w
  else
    let live1 := w.live.erase eid
    { live := live1, isDestroyed := true
      hookLog := w.hookLog ++ [decide (eid ∈ live1)] }

/-- `_GameObject.destroy` of src/game_objects.py:99-105 (the module-level
variant): if already destroyed, return; else mark destroyed, run the
destroy hooks first, and call `_discard_game_object(self)` afterwards — the
inspecting hook reads the live set before the entity is removed. -/
def gameObjectsDestroy (w : EntityWorld) (eid : Nat) : EntityWorld :=
  if w.isDestroyed then w
  else
    { live := w.live.erase eid, isDestroyed := true
      hookLog := w.hookLog ++ [decide (eid ∈ w.live)] }

/-! ## Collider and body destruction (src/physics/physics.py) -/

/-- Python `set.remove`: removes the element or raises `KeyError` when it
is absent.  (`set.discard`, by contrast, never fails.) -/
def setRemove (s : Finset Nat) (x : Nat) : Except String (Finset Nat) :=
  if x ∈ s then .ok (s.erase x) else .error "KeyError"

/-- The sets touched by destroying a circle collider. -/
structure ColliderWorld where
  circleColliders : Finset Nat
  bodyColliders : Finset Nat
deriving DecidableEq

/-- `CircleCollider.destroy` as composed by the mixin chain:
`_CircleColliderMixin.destroy` (src/physics/physics.py:242-244) does
`self._system._circle_colliders.remove(self)` — `remove`, not `discard`,
so it raises `KeyError` when the collider is no longer in the system set —
then `RegularCollider.destroy` (157-159) discards the collider from its
body's `_colliders`, and `Collider.destroy` (143-144) is a no-op. -/
def circleColliderDestroy (w : ColliderWorld) (cid : Nat) :
    Except String ColliderWorld :=
  match setRemove w.circleColliders cid with
  | .error e => .error e
  | .ok cc => .ok { circleColliders := cc, bodyColliders := w.bodyColliders.erase cid }

/-- The state touched by `PhysicsBody.destroy`
(src/physics/physics.py:63-74): the system's body set, the body's
`_is_destroyed` flag, its collider set, and the system's circle-collider
set that each collider destroy manipulates. -/
structure BodyWorld where
  bodies : Finset Nat
  bodyDestroyed : Bool
  bodyColliders : List Nat
  circleColliders : Finset Nat
deriving DecidableEq

/-- Destroy the colliders of a body one at a time (the
`for collider in colliders: collider.destroy()` loop over a copy of the
set, src/physics/physics.py:72-74); each step is the `remove`/`discard`
pair of `circleColliderDestroy`. -/
def destroyColliders (circle : Finset Nat) :
    List Nat → Except String (Finset Nat)
  | [] => .ok circle
  | c :: cs =>
      match setRemove circle c with
      | .error e => .error e
      | .ok circle1 => destroyColliders circle1 cs

/-- `PhysicsBody.destroy` (src/physics/physics.py:63-74): a guarded,
idempotent destroy — if `_is_destroyed`, return immediately; otherwise mark
destroyed, `discard` the body from the system's body set, and destroy each
of its colliders. -/
def physicsBodyDestroy (w : BodyWorld) (bid : Nat) : Except String BodyWorld :=
  if w.bodyDestroyed then .ok w
  else
    match destroyColliders w.circleColliders w.bodyColliders with
    | .error e => .error e
    | .ok circle1 =>
        .ok { bodies := w.bodies.erase bid, bodyDestroyed := true
              bodyColliders := [], circleColliders := circle1 }

/-! ## GameTime (src/game_time.py) -/

/-- `_ScheduledEvent` (src/game_time.py:34-40): a deadline paired with a
callback; callbacks are opaque, identified by `Nat` ids; firing one appends
its id to the pump's log.  Ordering (`__lt__`) is by time only. -/
structure SEvent where
  time : ℚ
  callbackId : Nat
deriving DecidableEq

/-- The heap order used by `heapq` on `_ScheduledEvent`s. -/
def eventLE (a b : SEvent) : Prop := a.time ≤ b.time

instance : DecidableRel eventLE := fun a b => by
  unfold eventLE; infer_instance

/-- `GameTime.run_after_delay` (src/game_time.py:12-20): push a
`(now + delay, callback)` entry.  The `heapq` min-heap is modelled as a
list sorted by deadline; a push is an ordered insert. -/
def runAfterDelay (now delayMs : ℚ) (cb : Nat) (events : List SEvent) :
    List SEvent :=
  events.orderedInsert eventLE { time := now + delayMs, callbackId := cb }

/-- `GameTime.run_callbacks` (src/game_time.py:22-31): repeatedly pop the
minimum-deadline event; if the current time has reached its deadline, fire
the callback and continue; otherwise push it back and stop the pump.
Returns the ids fired, in order, and the remaining heap. -/
def runCallbacks (now : ℚ) : List SEvent → List Nat × List SEvent
  | [] => ([], [])
  | e :: rest =>
      if e.time ≤ now then
        let result := runCallbacks now rest
        (e.callbackId :: result.1, result.2)
      else ([], e :: rest)

/-! ## GameObjectCoroutine (src/game_object_coroutine.py) -/

/-- Outcome of driving the underlying generator one slice
(`next`/`send`): it yields a value (possibly a yield instruction),
finishes normally (`StopIteration`), or raises some other exception
(identified by a `Nat` code). -/
inductive GenResult where
  | yields (hasInstruction : Bool)
  | stopIteration
  | raises (e : Nat)
deriving DecidableEq

/-- The coroutine flags manipulated by `_run_and_process_yield` and
`_update_hook` (src/game_object_coroutine.py:84-103).  `subscribed` is
whether `_update_hook` is registered on the entity (dropped by
`suspend`). -/
structure CoroutineState where
  isDone : Bool
  isSuspended : Bool
  subscribed : Bool
deriving DecidableEq

/-- `GameObjectCoroutine._run_and_process_yield`
(src/game_object_coroutine.py:91-103): run one slice; on a normal yield,
proceed (the yield instruction's `apply` only toggles scheduling flags and
is irrelevant to the Done transition); on `StopIteration`, set `_is_done`
and swallow it; on any other exception, set `_is_done` and re-raise.  The
second component is the exception propagated to the caller, if any. -/
def runAndProcessYield (s : CoroutineState) (r : GenResult) :
    CoroutineState × Option Nat :=
  match r with
  | .yields _ => (s, none)
  | .stopIteration => ({ s with isDone := true }, none)
  | .raises e => ({ s with isDone := true }, some e)

/-- `GameObjectCoroutine.suspend` (src/game_object_coroutine.py:71-78). -/
def coroutineSuspend (s : CoroutineState) : CoroutineState :=
  if !s.isSuspended then { s with subscribed := false, isSuspended := true }
  else s

/-- `GameObjectCoroutine._update_hook` (src/game_object_coroutine.py:84-89),
the driving update call: if the coroutine is already done, suspend and do
not step the generator; otherwise drive one slice and let any exception
propagate (there is no handler in `_update_hook`).  The third component
records whether the generator was stepped. -/
def coroutineUpdateHook (s : CoroutineState) (r : GenResult) :
    CoroutineState × Option Nat × Bool :=
  if s.isDone then (coroutineSuspend s, none, false)
  else
    let result := runAndProcessYield s r
    (result.1, result.2, true)

/-! ## Trigger enter/exit/stay diffing -/

/-- The events a trigger reports about one other collider in one step. -/
structure TriggerEvents where
  isEnter : Bool
  isStay : Bool
  isExit : Bool
deriving DecidableEq

/-- Modelled from the spec: the per-step trigger diffing of the physics
update (spec §4.5 step 4) is not present under src/ — `src/physics/__init__.py`
imports `update` and `new_circle_trigger` from a `physics` module revision
the snapshot lacks, and `src/physics/triggers.py:59-98` only declares the
enter/stay/exit hook lists that this step invokes.  Per the spec: compare
this frame's touching set with last frame's; present only last frame →
exit hooks, present only this frame → enter hooks, present both → stay
hooks; then this frame's set becomes "previous" for the next step.
Specialised to one (trigger, other-collider) pair, the touching sets
reduce to the booleans `prev` (overlapped last step) and `now`
(overlaps this step). -/
def triggerStep (prev now : Bool) : TriggerEvents :=
  { isEnter := now && !prev, isStay := now && prev, isExit := !now && prev }

/-- Modelled from the spec: run the trigger diffing over a sequence of
per-step overlap results, starting from the previous-frame state `prev`
(`false` before the first step, since nothing was touching), rolling each
step's overlap into "previous" for the next step. -/
def runTrigger (prev : Bool) : List Bool → List TriggerEvents
  | [] => []
  | o :: os => triggerStep prev o :: runTrigger o os

/-- The overlap history the trigger claim describes: some steps without
overlap, then `k` consecutive overlapping steps, then `m` steps without
overlap again. -/
def pulseOverlap (a k m : Nat) : List Bool :=
  List.replicate a false ++ List.replicate k true ++ List.replicate m false

/-- A step on which no trigger hook fires. -/
def quietEvents : TriggerEvents := ⟨false, false, false⟩

/-- The step on which only the enter hooks fire. -/
def enterEvents : TriggerEvents := ⟨true, false, false⟩

/-- A step on which only the stay hooks fire. -/
def stayEvents : TriggerEvents := ⟨false, true, false⟩

/-- The step on which only the exit hooks fire. -/
def exitEvents : TriggerEvents := ⟨false, false, true⟩

/-! ## Structural predicates about quadtrees used by the theorems -/

/-- The leaves of a (sub)tree: their boxes paired with their collider
lists. -/
def QNode.leavesOf : QNode → List (AABB × List QuadtreeCollider)
  | .leaf b cs => [(b, cs)]
  | .node _ k0 k1 k2 k3 =>
      k0.leavesOf ++ k1.leavesOf ++ k2.leavesOf ++ k3.leavesOf

/-- All colliders stored anywhere in the (sub)tree, with multiplicity. -/
def QNode.allCols : QNode → List QuadtreeCollider
  | .leaf _ cs => cs
  | .node _ k0 k1 k2 k3 =>
      k0.allCols ++ k1.allCols ++ k2.allCols ++ k3.allCols

/-- Well-formedness of a node with respect to its remaining fuel
(`max_depth - depth`): boxes are valid, an internal node only exists above
the depth limit, and its children carry exactly the `make_subtrees`
quadrant boxes. -/
def QNode.WF : Nat → QNode → Prop
  | _, .leaf box _ => box.valid
  | 0, .node _ _ _ _ _ => False
  | fuel + 1, .node box k0 k1 k2 k3 =>
      box.valid ∧
      k0.qbox = childBox0 box ∧ k1.qbox = childBox1 box ∧
      k2.qbox = childBox2 box ∧ k3.qbox = childBox3 box ∧
      QNode.WF fuel k0 ∧ QNode.WF fuel k1 ∧
      QNode.WF fuel k2 ∧ QNode.WF fuel k3

/-- Capacity invariant: every leaf strictly above the depth limit holds at
most `maxLoad - 1` colliders. -/
def QNode.CapOK : Nat → QNode → Prop
  | 0, _ => True
  | _ + 1, .leaf _ cs => cs.length ≤ maxLoad - 1
  | fuel + 1, .node _ k0 k1 k2 k3 =>
      QNode.CapOK fuel k0 ∧ QNode.CapOK fuel k1 ∧
      QNode.CapOK fuel k2 ∧ QNode.CapOK fuel k3

/-- A collider is stored in every leaf of the (sub)tree whose box it
intersects. -/
def Stored (c : QuadtreeCollider) (n : QNode) : Prop :=
  ∀ p ∈ n.leavesOf, c.aabb.intersects p.1 = true → c ∈ p.2

/-- No leaf stores two colliders with the same identity (Python objects in
a `set`-backed tree are added to a list at most once per leaf). -/
def TreeNodup (n : QNode) : Prop :=
  ∀ p ∈ n.leavesOf, (p.2.map QuadtreeCollider.id).Nodup

/-! ## Concrete instances used by witnesses and counterexamples -/

/-- A hook environment in which hook 0 appends hook 5 and every other hook
leaves the list alone. -/
def appendingEnv : Nat → HookEffect :=
  fun k => if k = 0 then .appendHook 5 else .quiet

/-- An entity world: entity 3 is alive and not yet destroyed; no hook has
run. -/
def entityWorld3 : EntityWorld := ⟨{3}, false, []⟩

/-- A physics world containing one body 1 whose only collider 2 is
registered in the system's circle-collider set. -/
def bodyWorld1 : BodyWorld := ⟨{1}, false, [2], {2}⟩

/-- A shorthand for concrete quadtree colliders. -/
def mkQC (i : Nat) (a b c d : ℚ) : QuadtreeCollider :=
  { aabb := ⟨a, b, c, d⟩, id := i }

/-- Four colliders inside the box `[0,16] × [0,16]`. -/
def fourColliders : List QuadtreeCollider :=
  [mkQC 0 0 2 0 2, mkQC 1 1 3 1 3, mkQC 2 10 12 10 12, mkQC 3 11 13 0 2]

/-- The spec's concrete head-on scenario, body 1: mass 1 at the origin
moving right. -/
def headOn1 : Body := { mass := 1, x := 0, y := 0, vx := 1, vy := 0 }

/-- The spec's concrete head-on scenario, body 2: mass 1 at (15, 0) moving
left. -/
def headOn2 : Body := { mass := 1, x := 15, y := 0, vx := -1, vy := 0 }


/-! ## Theorems -/

theorem runHooksAux_fst (env : Nat → HookEffect) :
    ∀ snapshot current, (runHooksAux env snapshot current).1 = snapshot := by
  intro snapshot
  induction snapshot with
  | nil => intro current; rfl
  | cons h rest ih =>
      intro current
      simp [runHooksAux, ih]

theorem runHooksAux_snd (env : Nat → HookEffect) :
    ∀ snapshot current,
      (runHooksAux env snapshot current).2 =
        snapshot.foldl (applyEffect env) current := by
  intro snapshot
  induction snapshot with
  | nil => intro current; rfl
  | cons h rest ih =>
      intro current
      simp [runHooksAux, List.foldl, ih]

/-- C6: `HookList.run_hooks` iterates over a snapshot taken before any hook
runs: the hooks invoked are exactly the pre-run subscriber list, whatever
list mutations the hooks perform; the mutations are all applied to the
list, so they take effect for subsequent invocations only; in particular a
hook that appends a new hook during the run does not get the new hook
called in that same run. -/
theorem run_hooks_snapshot :
    (∀ env listeners, (runHooks env listeners).1 = listeners) ∧
    (∀ env listeners,
      (runHooks env listeners).2 = listeners.foldl (applyEffect env) listeners) ∧
    (∀ env listeners h n, env h = HookEffect.appendHook n → n ∉ listeners →
      n ∉ (runHooks env listeners).1) := by
  refine ⟨fun env listeners => runHooksAux_fst env listeners listeners,
    fun env listeners => runHooksAux_snd env listeners listeners, ?_⟩
  intro env listeners h n _ hn
  rw [runHooks, runHooksAux_fst]
  exact hn

/-- Witness for C6 at a concrete input: in a list holding only hook 0,
where hook 0 appends hook 5, the run does not call hook 5. -/
theorem run_hooks_snapshot_witness : 5 ∉ (runHooks appendingEnv [0]).1 :=
  run_hooks_snapshot.2.2 appendingEnv [0] 0 5 rfl (by decide)

/-- C9: if the generator raises an exception other than `StopIteration`
during a slice, the coroutine transitions to Done and the exception
propagates out of the driving update call; `StopIteration` also transitions
to Done but propagates nothing; and once done, later driving updates keep
the coroutine done and never step the generator again. -/
theorem coroutine_exception_done :
    (∀ s e, (runAndProcessYield s (.raises e)).1.isDone = true ∧
      (runAndProcessYield s (.raises e)).2 = some e) ∧
    (∀ s, (runAndProcessYield s .stopIteration).1.isDone = true ∧
      (runAndProcessYield s .stopIteration).2 = none) ∧
    (∀ s e, s.isDone = false →
      coroutineUpdateHook s (.raises e) = ({ s with isDone := true }, some e, true)) ∧
    (∀ s r, s.isDone = true →
      (coroutineUpdateHook s r).1.isDone = true ∧
      (coroutineUpdateHook s r).2.2 = false) := by
  refine ⟨fun s e => ⟨rfl, rfl⟩, fun s => ⟨rfl, rfl⟩, ?_, ?_⟩
  · intro s e hs
    simp [coroutineUpdateHook, hs, runAndProcessYield]
  · intro s r hs
    simp [coroutineUpdateHook, hs, coroutineSuspend]
    split <;> simp [hs]

/-- Witness for C9 at a concrete input: a live coroutine whose generator
raises exception 42 becomes done and re-raises 42 from the driving
update. -/
theorem coroutine_exception_done_witness :
    coroutineUpdateHook ⟨false, false, true⟩ (.raises 42) =
      (⟨true, false, true⟩, some 42, true) :=
  coroutine_exception_done.2.2.1 ⟨false, false, true⟩ 42 rfl

/-- C10: constructing a `Quadtree` from an empty collider list fails with
an assertion error, so `PhysicsSystem.get_overlapping_pairs` — and hence
`PhysicsSystem.update` — fails whenever the system has no circle colliders,
while any non-empty collider set lets the update proceed. -/
theorem empty_world_update_fails :
    Quadtree.init [] = .error "AssertionError" ∧
    getOverlappingPairs [] = .error "AssertionError" ∧
    physicsUpdate [] = .error "AssertionError" ∧
    (∀ c cs, physicsUpdate (c :: cs) = .ok ()) := by
  refine ⟨rfl, rfl, rfl, ?_⟩
  intro c cs
  simp [physicsUpdate, getOverlappingPairs, Quadtree.init, Except.map]

/-- C5 counterexample: in the module-level variant
(`src/game_objects.py:99-105`) the destroy hooks run before the entity is
removed from the live set, so a destroy hook that inspects the live set
observes the entity still present (the recorded observation is `true`). -/
theorem destroy_hook_observes_live_entity :
    (gameObjectsDestroy entityWorld3 3).hookLog = [true] := rfl

/-- C5 amended: in `src/game_object.py:107-113` the entity is discarded
from the system's live set before the destroy hooks run, so an inspecting
hook observes it absent; in the `src/game_objects.py:99-105` variant the
hooks run first and observe the entity exactly as present as it was before
the destroy. -/
theorem destroy_removes_before_hooks_amended :
    ∀ w eid, w.isDestroyed = false →
      (gameObjectDestroy w eid).hookLog = w.hookLog ++ [false] ∧
      eid ∉ (gameObjectDestroy w eid).live ∧
      (gameObjectsDestroy w eid).hookLog =
        w.hookLog ++ [decide (eid ∈ w.live)] := by
  intro w eid hw
  refine ⟨?_, ?_, ?_⟩
  · simp [gameObjectDestroy, hw]
  · simp [gameObjectDestroy, hw]
  · simp [gameObjectsDestroy, hw]

/-- Witness for the amended C5 at a concrete input. -/
theorem destroy_removes_before_hooks_amended_witness :
    (gameObjectDestroy entityWorld3 3).hookLog = [] ++ [false] ∧
    3 ∉ (gameObjectDestroy entityWorld3 3).live ∧
    (gameObjectsDestroy entityWorld3 3).hookLog =
      [] ++ [decide (3 ∈ entityWorld3.live)] :=
  destroy_removes_before_hooks_amended entityWorld3 3 rfl

/-- C4 counterexample: destroying a circle collider twice is not a safe
no-op — the first destroy removes collider 7 from the system's
circle-collider set, and the second raises `KeyError`, because
`_CircleColliderMixin.destroy` uses `set.remove` rather than
`set.discard`. -/
theorem collider_double_destroy_raises :
    circleColliderDestroy ⟨{7}, {7}⟩ 7 = .ok ⟨∅, ∅⟩ ∧
    (circleColliderDestroy ⟨{7}, {7}⟩ 7).bind
        (fun w1 => circleColliderDestroy w1 7) = .error "KeyError" :=
  ⟨rfl, rfl⟩

theorem destroyColliders_isOk (cs : List Nat) :
    ∀ circle : Finset Nat, cs.Nodup → (∀ c ∈ cs, c ∈ circle) →
      (destroyColliders circle cs).isOk = true := by
  induction cs with
  | nil => intro circle _ _; rfl
  | cons c rest ih =>
      intro circle hnd hsub
      have hc : c ∈ circle := hsub c (by simp)
      rw [destroyColliders, setRemove, if_pos hc]
      exact ih (circle.erase c) hnd.of_cons (by
        intro x hx
        refine Finset.mem_erase.mpr ⟨?_, hsub x (by simp [hx])⟩
        intro hxc
        exact (List.nodup_cons.mp hnd).1 (hxc ▸ hx))

/-- C4 amended: destroying an Entity or a PhysicsBody a second time is a
safe no-op with the same observable effect as destroying it once — the
destroy hooks fire exactly once and the object leaves every system-level
set that tracked it — but destroying a circle Collider a second time raises
`KeyError`, because `_CircleColliderMixin.destroy` removes the collider
from the system's circle-collider set with `set.remove`, which fails on an
absent element. -/
theorem destroy_idempotent_amended :
    (∀ w eid, w.isDestroyed = false →
      (gameObjectDestroy w eid).hookLog.length = w.hookLog.length + 1 ∧
      gameObjectDestroy (gameObjectDestroy w eid) eid = gameObjectDestroy w eid ∧
      eid ∉ (gameObjectDestroy w eid).live) ∧
    (∀ w bid, w.bodyDestroyed = true → physicsBodyDestroy w bid = .ok w) ∧
    (∀ w bid w', w.bodyDestroyed = false → physicsBodyDestroy w bid = .ok w' →
      w'.bodyDestroyed = true ∧ bid ∉ w'.bodies ∧
      physicsBodyDestroy w' bid = .ok w') ∧
    (∀ w bid, w.bodyColliders.Nodup →
      (∀ c ∈ w.bodyColliders, c ∈ w.circleColliders) →
      (physicsBodyDestroy w bid).isOk = true) ∧
    (∀ w cid, cid ∈ w.circleColliders →
      circleColliderDestroy w cid =
        .ok ⟨w.circleColliders.erase cid, w.bodyColliders.erase cid⟩) := by
  refine ⟨?_, ?_, ?_, ?_, ?_⟩
  · intro w eid hw
    refine ⟨?_, ?_, ?_⟩
    · simp [gameObjectDestroy, hw]
    · simp [gameObjectDestroy, hw]
    · simp [gameObjectDestroy, hw]
  · intro w bid hw
    simp [physicsBodyDestroy, hw]
  · intro w bid w' hw hok
    rw [physicsBodyDestroy, if_neg (by simp [hw])] at hok
    cases hdc : destroyColliders w.circleColliders w.bodyColliders with
    | error e => rw [hdc] at hok; cases hok
    | ok circle1 =>
        rw [hdc] at hok
        cases hok
        refine ⟨rfl, by simp, ?_⟩
        rw [physicsBodyDestroy, if_pos rfl]
  · intro w bid hnd hsub
    rw [physicsBodyDestroy]
    by_cases hw : w.bodyDestroyed
    · rw [if_pos hw]; rfl
    · rw [if_neg hw]
      have := destroyColliders_isOk w.bodyColliders w.circleColliders hnd hsub
      cases hdc : destroyColliders w.circleColliders w.bodyColliders with
      | error e => rw [hdc] at this; cases this
      | ok circle1 => rfl
  · intro w cid hc
    rw [circleColliderDestroy, setRemove, if_pos hc]

/-- Witness for the amended C4 at a concrete input: destroying body 1 (not
yet destroyed, with collider 2) yields a destroyed body removed from the
body set, and a repeat destroy is a no-op returning the same world. -/
theorem destroy_idempotent_amended_witness :
    bodyWorld1.bodyDestroyed = true ∧ 1 ∉ bodyWorld1.bodies ∧
      physicsBodyDestroy bodyWorld1 1 = .ok bodyWorld1 ∨
    ((⟨∅, true, [], ∅⟩ : BodyWorld).bodyDestroyed = true ∧
      1 ∉ (⟨∅, true, [], ∅⟩ : BodyWorld).bodies ∧
      physicsBodyDestroy ⟨∅, true, [], ∅⟩ 1 = .ok ⟨∅, true, [], ∅⟩) :=
  Or.inr (destroy_idempotent_amended.2.2.1 bodyWorld1 1 ⟨∅, true, [], ∅⟩ rfl rfl)

theorem filtered_times_sorted (now : ℚ) (l : List SEvent)
    (hs : l.Sorted eventLE) :
    ((l.filter (fun e => decide (e.time ≤ now))).map SEvent.time).Sorted (· ≤ ·) := by
  rw [List.Sorted, List.pairwise_map]
  exact (hs.filter _).imp (fun h => h)

/-- C7: with the heap sorted by deadline, one pump of
`GameTime.run_callbacks` fires exactly the scheduled events whose deadline
is at or before the current time — their callbacks in nondecreasing
deadline order, none before its deadline — and leaves exactly the
not-yet-due events scheduled. -/
theorem run_callbacks_fires_due (now : ℚ) :
    ∀ l : List SEvent, l.Sorted eventLE →
      (runCallbacks now l).1 =
        (l.filter (fun e => decide (e.time ≤ now))).map SEvent.callbackId ∧
      (runCallbacks now l).2 = l.filter (fun e => !decide (e.time ≤ now)) ∧
      ((l.filter (fun e => decide (e.time ≤ now))).map SEvent.time).Sorted (· ≤ ·) := by
  intro l
  induction l with
  | nil => intro _; exact ⟨rfl, rfl, by simp⟩
  | cons e rest ih =>
      intro hs
      have hall := (List.sorted_cons.mp hs).1
      have hrest := (List.sorted_cons.mp hs).2
      refine ⟨?_, ?_, filtered_times_sorted now _ hs⟩ <;>
        by_cases hd : e.time ≤ now
      · simp [runCallbacks, hd, (ih hrest).1]
      · have hnone : ∀ x ∈ rest, ¬ (x.time ≤ now) := by
          intro x hx hxle
          exact hd (le_trans (hall x hx) hxle)
        rw [runCallbacks, if_neg hd]
        rw [List.filter_cons_of_neg (by simpa using hd)]
        rw [List.filter_eq_nil_iff.mpr (by intro x hx; simpa using hnone x hx)]
        rfl
      · simp [runCallbacks, hd, (ih hrest).2.1]
      · have hnone : ∀ x ∈ rest, ¬ (x.time ≤ now) := by
          intro x hx hxle
          exact hd (le_trans (hall x hx) hxle)
        rw [runCallbacks, if_neg hd]
        rw [List.filter_cons_of_pos (by simpa using hd)]
        rw [List.filter_eq_self.mpr (by intro x hx; simpa using hnone x hx)]

/-- Witness for C7 at a concrete input: heap with deadlines 1 and 3, pumped
at time 2. -/
theorem run_callbacks_fires_due_witness :
    (runCallbacks 2 [⟨1, 10⟩, ⟨3, 11⟩]).1 =
      (([⟨1, 10⟩, ⟨3, 11⟩] : List SEvent).filter
        (fun e => decide (e.time ≤ 2))).map SEvent.callbackId ∧
    (runCallbacks 2 [⟨1, 10⟩, ⟨3, 11⟩]).2 =
      ([⟨1, 10⟩, ⟨3, 11⟩] : List SEvent).filter (fun e => !decide (e.time ≤ 2)) ∧
    ((([⟨1, 10⟩, ⟨3, 11⟩] : List SEvent).filter
        (fun e => decide (e.time ≤ 2))).map SEvent.time).Sorted (· ≤ ·) :=
  run_callbacks_fires_due 2 [⟨1, 10⟩, ⟨3, 11⟩]
    (by simp [List.sorted_cons, eventLE])

theorem countP_of_replicate {α : Type} (p : α → Bool) (n : Nat) (x : α) :
    (List.replicate n x).countP p = if p x then n else 0 := by
  induction n with
  | zero => simp
  | succ k ih =>
      rw [List.replicate_succ, List.countP_cons, ih]
      by_cases hx : p x <;> simp [hx, Nat.add_comm]

theorem runTrigger_cons (p o : Bool) (os : List Bool) :
    runTrigger p (o :: os) = triggerStep p o :: runTrigger o os := rfl

theorem triggerStep_clear_clear : triggerStep false false = quietEvents := rfl

theorem triggerStep_clear_touch : triggerStep false true = enterEvents := rfl

theorem triggerStep_touch_touch : triggerStep true true = stayEvents := rfl

theorem triggerStep_touch_clear : triggerStep true false = exitEvents := rfl

theorem runTrigger_false_replicate (n : Nat) (rest : List Bool) :
    runTrigger false (List.replicate n false ++ rest) =
      List.replicate n quietEvents ++ runTrigger false rest := by
  induction n with
  | zero => simp
  | succ k ih =>
      rw [List.replicate_succ, List.cons_append, runTrigger_cons,
        triggerStep_clear_clear, ih, List.replicate_succ, List.cons_append]

theorem runTrigger_true_replicate (n : Nat) (rest : List Bool) :
    runTrigger true (List.replicate n true ++ rest) =
      List.replicate n stayEvents ++ runTrigger true rest := by
  induction n with
  | zero => simp
  | succ k ih =>
      rw [List.replicate_succ, List.cons_append, runTrigger_cons,
        triggerStep_touch_touch, ih, List.replicate_succ, List.cons_append]

/-- C3: for a collider whose overlap with a trigger is false for `a` steps,
true for `kp + 1` steps and false again for `mp + 1` steps, the trigger
diffing produces: no events while clear, the enter hooks exactly on the
first overlapping step, the stay hooks exactly on the overlapping steps
whose previous step also overlapped, the exit hooks exactly on the first
step after the overlap ends, and nothing afterwards; in particular enter
and exit hooks each run exactly once and stay hooks run `kp` times. -/
theorem trigger_enter_exit_stay (a kp mp : Nat) :
    runTrigger false (pulseOverlap a (kp + 1) (mp + 1)) =
      List.replicate a quietEvents ++ enterEvents ::
        (List.replicate kp stayEvents ++ exitEvents ::
          List.replicate mp quietEvents) ∧
    (runTrigger false (pulseOverlap a (kp + 1) (mp + 1))).countP
      (fun ev => ev.isEnter) = 1 ∧
    (runTrigger false (pulseOverlap a (kp + 1) (mp + 1))).countP
      (fun ev => ev.isExit) = 1 ∧
    (runTrigger false (pulseOverlap a (kp + 1) (mp + 1))).countP
      (fun ev => ev.isStay) = kp := by
  have hlast : runTrigger false (List.replicate mp false) =
      List.replicate mp quietEvents := by
    simpa [runTrigger] using runTrigger_false_replicate mp []
  have hmain : runTrigger false (pulseOverlap a (kp + 1) (mp + 1)) =
      List.replicate a quietEvents ++ enterEvents ::
        (List.replicate kp stayEvents ++ exitEvents ::
          List.replicate mp quietEvents) := by
    rw [pulseOverlap, List.append_assoc, runTrigger_false_replicate,
      List.replicate_succ, List.cons_append, runTrigger_cons,
      triggerStep_clear_touch, runTrigger_true_replicate,
      List.replicate_succ, runTrigger_cons,
      triggerStep_touch_clear, hlast]
  refine ⟨hmain, ?_, ?_, ?_⟩ <;>
    rw [hmain] <;>
    simp [List.countP_append, List.countP_cons, countP_of_replicate,
      quietEvents, enterEvents, stayEvents, exitEvents]

theorem addIfIntersects_preserves (adder : QNode → QuadtreeCollider → QNode)
    (P : QNode → Prop) (hP : ∀ k c, P k → P (adder k c))
    (c : QuadtreeCollider) (k : QNode) (h : P k) :
    P (addIfIntersects adder c k) := by
  rw [addIfIntersects]
  split
  · exact hP k c h
  · exact h

theorem distribute_preserves (adder : QNode → QuadtreeCollider → QNode)
    (P : QNode → Prop) (hP : ∀ k c, P k → P (adder k c)) :
    ∀ (cols : List QuadtreeCollider) (k0 k1 k2 k3 : QNode),
      P k0 → P k1 → P k2 → P k3 →
      P (distribute adder cols (k0, k1, k2, k3)).1 ∧
      P (distribute adder cols (k0, k1, k2, k3)).2.1 ∧
      P (distribute adder cols (k0, k1, k2, k3)).2.2.1 ∧
      P (distribute adder cols (k0, k1, k2, k3)).2.2.2 := by
  intro cols
  induction cols with
  | nil => intro k0 k1 k2 k3 h0 h1 h2 h3; exact ⟨h0, h1, h2, h3⟩
  | cons c rest ih =>
      intro k0 k1 k2 k3 h0 h1 h2 h3
      rw [distribute]
      exact ih _ _ _ _
        (addIfIntersects_preserves adder P hP c k0 h0)
        (addIfIntersects_preserves adder P hP c k1 h1)
        (addIfIntersects_preserves adder P hP c k2 h2)
        (addIfIntersects_preserves adder P hP c k3 h3)

theorem capok_fresh (fuel : Nat) (b : AABB) :
    QNode.CapOK fuel (QNode.leaf b []) := by
  cases fuel <;> simp [QNode.CapOK]

theorem capok_add :
    ∀ fuel (n : QNode) (c : QuadtreeCollider),
      QNode.CapOK fuel n → QNode.CapOK fuel (QNode.add fuel n c) := by
  intro fuel
  induction fuel with
  | zero =>
      intro n c h
      cases n <;> simp [QNode.add, QNode.CapOK]
  | succ f ih =>
      intro n c h
      cases n with
      | leaf box cs =>
          by_cases hload : maxLoad ≤ cs.length + 1
          · simp only [QNode.add, if_pos hload]
            have hd := distribute_preserves (QNode.add f) (QNode.CapOK f)
              (fun k c hk => ih k c hk) (cs ++ [c])
              (QNode.leaf (childBox0 box) []) (QNode.leaf (childBox1 box) [])
              (QNode.leaf (childBox2 box) []) (QNode.leaf (childBox3 box) [])
              (capok_fresh f _) (capok_fresh f _) (capok_fresh f _)
              (capok_fresh f _)
            exact ⟨hd.1, hd.2.1, hd.2.2.1, hd.2.2.2⟩
          · simp only [QNode.add, if_neg hload]
            simp only [QNode.CapOK, maxLoad] at h ⊢
            simp only [maxLoad] at hload
            simp [List.length_append]
            omega
      | node box k0 k1 k2 k3 =>
          simp only [QNode.add, QNode.CapOK] at h ⊢
          exact ⟨addIfIntersects_preserves _ _ (fun k c hk => ih k c hk) c k0 h.1,
            addIfIntersects_preserves _ _ (fun k c hk => ih k c hk) c k1 h.2.1,
            addIfIntersects_preserves _ _ (fun k c hk => ih k c hk) c k2 h.2.2.1,
            addIfIntersects_preserves _ _ (fun k c hk => ih k c hk) c k3 h.2.2.2⟩

theorem capok_foldl (l : List QuadtreeCollider) :
    ∀ t : QNode, QNode.CapOK maxDepth t →
      QNode.CapOK maxDepth (l.foldl (fun t q => QNode.add maxDepth t q) t) := by
  induction l with
  | nil => intro t h; exact h
  | cons c rest ih =>
      intro t h
      exact ih _ (capok_add maxDepth t c h)

/-- C8 counterexample: a leaf at depth 0 — far below the max depth of 10 —
holding 4 colliders, i.e. under the claimed capacity of 5, does not append
a 5th collider: insertion subdivides the leaf into an internal node, even
though the load only reaches 5 and never exceeds it. -/
theorem leaf_subdivides_at_capacity :
    fourColliders.length = 4 ∧
    (QNode.add maxDepth (QNode.leaf ⟨0, 16, 0, 16⟩ fourColliders)
        (mkQC 4 5 6 5 6)).isNode = true ∧
    QNode.add maxDepth (QNode.leaf ⟨0, 16, 0, 16⟩ fourColliders)
        (mkQC 4 5 6 5 6) ≠
      QNode.leaf ⟨0, 16, 0, 16⟩ (fourColliders ++ [mkQC 4 5 6 5 6]) := by
  refine ⟨rfl, rfl, ?_⟩
  intro h
  have h2 := congrArg QNode.isNode h
  rw [show (QNode.leaf (⟨0, 16, 0, 16⟩ : AABB)
      (fourColliders ++ [mkQC 4 5 6 5 6])).isNode = false from rfl] at h2
  rw [show (QNode.add maxDepth (QNode.leaf ⟨0, 16, 0, 16⟩ fourColliders)
      (mkQC 4 5 6 5 6)).isNode = true from rfl] at h2
  cases h2

/-- C8 amended: insertion into a leaf appends only while the leaf holds at
most `maxLoad - 2 = 3` colliders or the node is at max depth (fuel 0); it
subdivides as soon as the insertion would bring the leaf's load up to the
max load of 5 — i.e. when the load reaches 5, not only when it is
exceeded.  Consequently every leaf strictly above the depth limit in a
built quadtree holds at most 4 colliders (subdivision still distributes a
collider into every child quadrant its box intersects, boundaries
inclusive). -/
theorem quadtree_capacity_amended :
    (∀ fuel box cs c, maxLoad ≤ cs.length + 1 →
      (QNode.add (fuel + 1) (QNode.leaf box cs) c).isNode = true) ∧
    (∀ fuel box cs c, cs.length + 1 < maxLoad →
      QNode.add (fuel + 1) (QNode.leaf box cs) c = QNode.leaf box (cs ++ [c])) ∧
    (∀ box cs c, QNode.add 0 (QNode.leaf box cs) c = QNode.leaf box (cs ++ [c])) ∧
    (∀ colliders t, Quadtree.init colliders = .ok t →
      QNode.CapOK maxDepth t) := by
  refine ⟨?_, ?_, fun box cs c => rfl, ?_⟩
  · intro fuel box cs c h
    simp only [QNode.add, if_pos h]
    rfl
  · intro fuel box cs c h
    simp only [QNode.add, if_neg (by omega : ¬ maxLoad ≤ cs.length + 1)]
  · intro colliders t hinit
    cases colliders with
    | nil => cases hinit
    | cons c cs =>
        rw [Quadtree.init] at hinit
        cases hinit
        exact capok_foldl (c :: cs) _ (capok_fresh _ _)

/-- Witness for the amended C8 at a concrete input: inserting a 5th
collider into a 4-collider leaf at depth 1 subdivides it. -/
theorem quadtree_capacity_amended_witness :
    (QNode.add (9 + 1) (QNode.leaf ⟨0, 16, 0, 16⟩ fourColliders)
      (mkQC 4 5 6 5 6)).isNode = true :=
  quadtree_capacity_amended.1 9 ⟨0, 16, 0, 16⟩ fourColliders (mkQC 4 5 6 5 6)
    (by decide)

theorem resolvePair_of_approaching (b1 b2 : Body)
    (hsep : (b1.x - b2.x) ^ 2 + (b1.y - b2.y) ^ 2 ≠ 0)
    (happ : (b1.vx - b2.vx) * (b1.x - b2.x) + (b1.vy - b2.vy) * (b1.y - b2.y) < 0)
    (hmd : 0 < 1 / b1.mass + 1 / b2.mass) :
    resolvePair b1 b2 =
      (b1.addImpulse
        ((b1.x - b2.x) *
          -(2 * ((b1.vx - b2.vx) * (b1.x - b2.x) + (b1.vy - b2.vy) * (b1.y - b2.y)) /
            (1 / b1.mass + 1 / b2.mass) / ((b1.x - b2.x) ^ 2 + (b1.y - b2.y) ^ 2)))
        ((b1.y - b2.y) *
          -(2 * ((b1.vx - b2.vx) * (b1.x - b2.x) + (b1.vy - b2.vy) * (b1.y - b2.y)) /
            (1 / b1.mass + 1 / b2.mass) / ((b1.x - b2.x) ^ 2 + (b1.y - b2.y) ^ 2))),
      b2.addImpulse
        (-((b1.x - b2.x) *
          -(2 * ((b1.vx - b2.vx) * (b1.x - b2.x) + (b1.vy - b2.vy) * (b1.y - b2.y)) /
            (1 / b1.mass + 1 / b2.mass) / ((b1.x - b2.x) ^ 2 + (b1.y - b2.y) ^ 2))))
        (-((b1.y - b2.y) *
          -(2 * ((b1.vx - b2.vx) * (b1.x - b2.x) + (b1.vy - b2.vy) * (b1.y - b2.y)) /
            (1 / b1.mass + 1 / b2.mass) / ((b1.x - b2.x) ^ 2 + (b1.y - b2.y) ^ 2))))) := by
  have hnapp : ¬ ((b1.vx - b2.vx) * (b1.x - b2.x) +
      (b1.vy - b2.vy) * (b1.y - b2.y) > 0) := lt_asymm happ
  simp only [resolvePair]
  rw [if_neg hsep, if_neg hnapp, if_pos hmd]

theorem momentum_split (m1 m2 a b i : ℚ) (hm1 : m1 ≠ 0) (hm2 : m2 ≠ 0) :
    m1 * (a + i / m1) + m2 * (b + -i / m2) = m1 * a + m2 * b := by
  field_simp
  ring

theorem ke_split (m1 m2 vx1 vy1 vx2 vy2 dx dy t : ℚ)
    (hm1 : m1 ≠ 0) (hm2 : m2 ≠ 0) :
    1/2 * m1 * ((vx1 + dx * t / m1) ^ 2 + (vy1 + dy * t / m1) ^ 2) +
      1/2 * m2 * ((vx2 + -(dx * t) / m2) ^ 2 + (vy2 + -(dy * t) / m2) ^ 2) =
    1/2 * m1 * (vx1 ^ 2 + vy1 ^ 2) + 1/2 * m2 * (vx2 ^ 2 + vy2 ^ 2) +
      (t * ((vx1 - vx2) * dx + (vy1 - vy2) * dy) +
        t ^ 2 * ((dx ^ 2 + dy ^ 2) * (1 / m1 + 1 / m2)) / 2) := by
  field_simp
  ring

theorem t_cancel (v d md : ℚ) (hd : d ≠ 0) (hmd : md ≠ 0) :
    -(2 * v / md / d) * v + (-(2 * v / md / d)) ^ 2 * (d * md) / 2 = 0 := by
  field_simp
  ring

/-- C1: for two overlapping, approaching, non-coincident regular
circle-collider bodies with positive finite masses, one resolution step
applies exactly the impulse `(sep.x*t, sep.y*t)` with
`t = -2*(relVel · sep) / (1/m1 + 1/m2) / |sep|²` to body1 and its negation
to body2, and total momentum and total kinetic energy are unchanged, in
exact arithmetic. -/
theorem elastic_collision_conserves (b1 b2 : Body) (r1 r2 : ℚ)
    (hm1 : 0 < b1.mass) (hm2 : 0 < b2.mass)
    (hover : circleOverlaps b1 r1 b2 r2 = true)
    (hsep : (b1.x - b2.x) ^ 2 + (b1.y - b2.y) ^ 2 ≠ 0)
    (happ : (b1.vx - b2.vx) * (b1.x - b2.x) + (b1.vy - b2.vy) * (b1.y - b2.y) < 0) :
    ElasticConclusion b1 b2 := by
  have hm1' : b1.mass ≠ 0 := ne_of_gt hm1
  have hm2' : b2.mass ≠ 0 := ne_of_gt hm2
  have hmd : 0 < 1 / b1.mass + 1 / b2.mass :=
    add_pos (one_div_pos.mpr hm1) (one_div_pos.mpr hm2)
  have hmd' : 1 / b1.mass + 1 / b2.mass ≠ 0 := ne_of_gt hmd
  have hres := resolvePair_of_approaching b1 b2 hsep happ hmd
  simp only [ElasticConclusion]
  rw [hres]
  refine ⟨rfl, rfl, ?_, ?_, ?_⟩
  · simp only [Body.addImpulse]
    exact momentum_split b1.mass b2.mass b1.vx b2.vx _ hm1' hm2'
  · simp only [Body.addImpulse]
    have h := momentum_split b1.mass b2.mass b1.vy b2.vy
      ((b1.y - b2.y) *
        -(2 * ((b1.vx - b2.vx) * (b1.x - b2.x) + (b1.vy - b2.vy) * (b1.y - b2.y)) /
          (1 / b1.mass + 1 / b2.mass) / ((b1.x - b2.x) ^ 2 + (b1.y - b2.y) ^ 2)))
      hm1' hm2'
    exact h
  · simp only [Body.addImpulse, Body.kineticEnergy]
    rw [ke_split _ _ _ _ _ _ _ _ _ hm1' hm2']
    rw [show
      -(2 * ((b1.vx - b2.vx) * (b1.x - b2.x) + (b1.vy - b2.vy) * (b1.y - b2.y)) /
          (1 / b1.mass + 1 / b2.mass) / ((b1.x - b2.x) ^ 2 + (b1.y - b2.y) ^ 2)) *
        ((b1.vx - b2.vx) * (b1.x - b2.x) + (b1.vy - b2.vy) * (b1.y - b2.y)) +
      (-(2 * ((b1.vx - b2.vx) * (b1.x - b2.x) + (b1.vy - b2.vy) * (b1.y - b2.y)) /
          (1 / b1.mass + 1 / b2.mass) / ((b1.x - b2.x) ^ 2 + (b1.y - b2.y) ^ 2))) ^ 2 *
        (((b1.x - b2.x) ^ 2 + (b1.y - b2.y) ^ 2) * (1 / b1.mass + 1 / b2.mass)) / 2 = 0
      from t_cancel _ _ _ hsep hmd']
    rw [add_zero]

/-- Witness for C1 at the spec's concrete head-on scenario: equal masses 1,
radius 10, centers 15 apart on the x-axis, approaching at ±1. -/
theorem elastic_collision_conserves_witness : ElasticConclusion headOn1 headOn2 :=
  elastic_collision_conserves headOn1 headOn2 10 10
    (by norm_num [headOn1]) (by norm_num [headOn2])
    (by norm_num [circleOverlaps, headOn1, headOn2])
    (by norm_num [headOn1, headOn2])
    (by norm_num [headOn1, headOn2])

/-! ### Geometry of boxes -/

theorem intersects_true_iff (a b : AABB) :
    a.intersects b = true ↔
      b.x_min ≤ a.x_max ∧ a.x_min ≤ b.x_max ∧
      b.y_min ≤ a.y_max ∧ a.y_min ≤ b.y_max := by
  simp [AABB.intersects, and_assoc]

theorem intersects_comm (a b : AABB) :
    a.intersects b = b.intersects a := by
  rcases h : b.intersects a with _ | _
  · rw [← Bool.not_eq_true] at h ⊢
    intro hab
    exact h ((intersects_true_iff b a).mpr (by
      have := (intersects_true_iff a b).mp hab
      tauto))
  · exact (intersects_true_iff a b).mpr (by
      have := (intersects_true_iff b a).mp h
      tauto)

theorem contains_of_subBox (b c : AABB) (px py : ℚ) (hsub : b.subBox c)
    (h : b.contains px py) : c.contains px py := by
  obtain ⟨h1, h2, h3, h4⟩ := hsub
  obtain ⟨g1, g2, g3, g4⟩ := h
  exact ⟨le_trans h1 g1, le_trans g2 h2, le_trans h3 g3, le_trans g4 h4⟩

theorem subBox_refl (b : AABB) : b.subBox b :=
  ⟨le_refl _, le_refl _, le_refl _, le_refl _⟩

theorem subBox_trans (a b c : AABB) (h1 : a.subBox b) (h2 : b.subBox c) :
    a.subBox c := by
  obtain ⟨a1, a2, a3, a4⟩ := h1
  obtain ⟨b1, b2, b3, b4⟩ := h2
  exact ⟨le_trans b1 a1, le_trans a2 b2, le_trans b3 a3, le_trans a4 b4⟩

theorem intersects_of_common_point (a b : AABB) (px py : ℚ)
    (ha : a.contains px py) (hb : b.contains px py) :
    a.intersects b = true := by
  obtain ⟨a1, a2, a3, a4⟩ := ha
  obtain ⟨b1, b2, b3, b4⟩ := hb
  exact (intersects_true_iff a b).mpr
    ⟨le_trans b1 a2, le_trans a1 b2, le_trans b3 a4, le_trans a3 b4⟩

theorem common_point_of_intersects (a b : AABB) (ha : a.valid) (hb : b.valid)
    (h : a.intersects b = true) :
    ∃ px py, a.contains px py ∧ b.contains px py := by
  obtain ⟨h1, h2, h3, h4⟩ := (intersects_true_iff a b).mp h
  refine ⟨max a.x_min b.x_min, max a.y_min b.y_min, ⟨?_, ?_, ?_, ?_⟩, ⟨?_, ?_, ?_, ?_⟩⟩
  · exact le_max_left _ _
  · exact max_le ha.1 h1
  · exact le_max_left _ _
  · exact max_le ha.2 h3
  · exact le_max_right _ _
  · exact max_le h2 hb.1
  · exact le_max_right _ _
  · exact max_le h4 hb.2

theorem childBox_valid (b : AABB) (hb : b.valid) :
    (childBox0 b).valid ∧ (childBox1 b).valid ∧
    (childBox2 b).valid ∧ (childBox3 b).valid := by
  obtain ⟨h1, h2⟩ := hb
  refine ⟨⟨?_, ?_⟩, ⟨?_, ?_⟩, ⟨?_, ?_⟩, ⟨?_, ?_⟩⟩ <;>
    simp only [childBox0, childBox1, childBox2, childBox3] <;> linarith

theorem childBox_sub (b : AABB) (hb : b.valid) :
    (childBox0 b).subBox b ∧ (childBox1 b).subBox b ∧
    (childBox2 b).subBox b ∧ (childBox3 b).subBox b := by
  obtain ⟨h1, h2⟩ := hb
  refine ⟨⟨?_, ?_, ?_, ?_⟩, ⟨?_, ?_, ?_, ?_⟩, ⟨?_, ?_, ?_, ?_⟩, ⟨?_, ?_, ?_, ?_⟩⟩ <;>
    simp only [childBox0, childBox1, childBox2, childBox3] <;> linarith

theorem childBox_cover (b : AABB) (px py : ℚ) (h : b.contains px py) :
    (childBox0 b).contains px py ∨ (childBox1 b).contains px py ∨
    (childBox2 b).contains px py ∨ (childBox3 b).contains px py := by
  obtain ⟨h1, h2, h3, h4⟩ := h
  rcases le_total px ((1/2) * (b.x_max + b.x_min)) with hx | hx <;>
    rcases le_total py ((1/2) * (b.y_max + b.y_min)) with hy | hy
  · exact Or.inr (Or.inr (Or.inl ⟨h1, hx, h3, hy⟩))
  · exact Or.inr (Or.inl ⟨h1, hx, hy, h4⟩)
  · exact Or.inr (Or.inr (Or.inr ⟨hx, h2, h3, hy⟩))
  · exact Or.inl ⟨hx, h2, hy, h4⟩

/-! ### Structural facts about insertion -/

theorem add_qbox : ∀ fuel (n : QNode) (c : QuadtreeCollider),
    (QNode.add fuel n c).qbox = n.qbox := by
  intro fuel
  induction fuel with
  | zero => intro n c; cases n <;> rfl
  | succ f _ =>
      intro n c
      cases n with
      | leaf box cs =>
          by_cases h : maxLoad ≤ cs.length + 1
          · simp only [QNode.add, if_pos h]; rfl
          · simp only [QNode.add, if_neg h]; rfl
      | node box k0 k1 k2 k3 => rfl

theorem addIf_add_qbox (f : Nat) (c : QuadtreeCollider) (k : QNode) :
    (addIfIntersects (QNode.add f) c k).qbox = k.qbox := by
  rw [addIfIntersects]
  split
  · exact add_qbox f k c
  · rfl

theorem distribute_preserves4 (adder : QNode → QuadtreeCollider → QNode)
    (P0 P1 P2 P3 : QNode → Prop) :
    ∀ (cols : List QuadtreeCollider),
      (∀ k c, c ∈ cols → P0 k → P0 (addIfIntersects adder c k)) →
      (∀ k c, c ∈ cols → P1 k → P1 (addIfIntersects adder c k)) →
      (∀ k c, c ∈ cols → P2 k → P2 (addIfIntersects adder c k)) →
      (∀ k c, c ∈ cols → P3 k → P3 (addIfIntersects adder c k)) →
      ∀ ks : QNode × QNode × QNode × QNode,
        P0 ks.1 → P1 ks.2.1 → P2 ks.2.2.1 → P3 ks.2.2.2 →
        P0 (distribute adder cols ks).1 ∧
        P1 (distribute adder cols ks).2.1 ∧
        P2 (distribute adder cols ks).2.2.1 ∧
        P3 (distribute adder cols ks).2.2.2 := by
  intro cols
  induction cols with
  | nil => intro _ _ _ _ ks h0 h1 h2 h3; exact ⟨h0, h1, h2, h3⟩
  | cons c rest ih =>
      intro hP0 hP1 hP2 hP3 ks h0 h1 h2 h3
      rw [distribute]
      exact ih
        (fun k c2 hc2 => hP0 k c2 (by simp [hc2]))
        (fun k c2 hc2 => hP1 k c2 (by simp [hc2]))
        (fun k c2 hc2 => hP2 k c2 (by simp [hc2]))
        (fun k c2 hc2 => hP3 k c2 (by simp [hc2]))
        (distributeStep adder c ks)
        (hP0 ks.1 c (by simp) h0) (hP1 ks.2.1 c (by simp) h1)
        (hP2 ks.2.2.1 c (by simp) h2) (hP3 ks.2.2.2 c (by simp) h3)

theorem wf_leaf (fuel : Nat) (box : AABB) (cs : List QuadtreeCollider)
    (h : box.valid) : QNode.WF fuel (QNode.leaf box cs) := by
  cases fuel <;> exact h

theorem wf_add : ∀ fuel (n : QNode) (c : QuadtreeCollider),
    QNode.WF fuel n → QNode.WF fuel (QNode.add fuel n c) := by
  intro fuel
  induction fuel with
  | zero =>
      intro n c h
      cases n with
      | leaf box cs => exact h
      | node box k0 k1 k2 k3 => exact h.elim
  | succ f ih =>
      intro n c h
      have hcl : ∀ (bx : AABB) (k : QNode) (c2 : QuadtreeCollider),
          (k.qbox = bx ∧ QNode.WF f k) →
          ((addIfIntersects (QNode.add f) c2 k).qbox = bx ∧
            QNode.WF f (addIfIntersects (QNode.add f) c2 k)) := by
        intro bx k c2 hk
        refine ⟨(addIf_add_qbox f c2 k).trans hk.1, ?_⟩
        rw [addIfIntersects]
        split
        · exact ih k c2 hk.2
        · exact hk.2
      cases n with
      | leaf box cs =>
          by_cases hl : maxLoad ≤ cs.length + 1
          · simp only [QNode.add, if_pos hl]
            have hbv : box.valid := h
            have hv := childBox_valid box hbv
            have hD := distribute_preserves4 (QNode.add f)
              (fun k => k.qbox = childBox0 box ∧ QNode.WF f k)
              (fun k => k.qbox = childBox1 box ∧ QNode.WF f k)
              (fun k => k.qbox = childBox2 box ∧ QNode.WF f k)
              (fun k => k.qbox = childBox3 box ∧ QNode.WF f k)
              (cs ++ [c])
              (fun k c2 _ => hcl _ k c2) (fun k c2 _ => hcl _ k c2)
              (fun k c2 _ => hcl _ k c2) (fun k c2 _ => hcl _ k c2)
              (QNode.leaf (childBox0 box) [], QNode.leaf (childBox1 box) [],
               QNode.leaf (childBox2 box) [], QNode.leaf (childBox3 box) [])
              ⟨rfl, wf_leaf f _ _ hv.1⟩ ⟨rfl, wf_leaf f _ _ hv.2.1⟩
              ⟨rfl, wf_leaf f _ _ hv.2.2.1⟩ ⟨rfl, wf_leaf f _ _ hv.2.2.2⟩
            exact ⟨hbv, hD.1.1, hD.2.1.1, hD.2.2.1.1, hD.2.2.2.1,
              hD.1.2, hD.2.1.2, hD.2.2.1.2, hD.2.2.2.2⟩
          · simp only [QNode.add, if_neg hl]
            exact h
      | node box k0 k1 k2 k3 =>
          obtain ⟨hv, hq0, hq1, hq2, hq3, hw0, hw1, hw2, hw3⟩ := h
          exact ⟨hv,
            (hcl _ k0 c ⟨hq0, hw0⟩).1, (hcl _ k1 c ⟨hq1, hw1⟩).1,
            (hcl _ k2 c ⟨hq2, hw2⟩).1, (hcl _ k3 c ⟨hq3, hw3⟩).1,
            (hcl _ k0 c ⟨hq0, hw0⟩).2, (hcl _ k1 c ⟨hq1, hw1⟩).2,
            (hcl _ k2 c ⟨hq2, hw2⟩).2, (hcl _ k3 c ⟨hq3, hw3⟩).2⟩

theorem wf_qbox_valid : ∀ fuel (n : QNode), QNode.WF fuel n → n.qbox.valid := by
  intro fuel n
  cases fuel with
  | zero =>
      cases n with
      | leaf box cs => exact fun h => h
      | node box k0 k1 k2 k3 => exact fun h => h.elim
  | succ f =>
      cases n with
      | leaf box cs => exact fun h => h
      | node box k0 k1 k2 k3 => exact fun h => h.1

theorem wf_leaves : ∀ fuel (n : QNode), QNode.WF fuel n →
    ∀ p ∈ n.leavesOf, p.1.subBox n.qbox ∧ p.1.valid := by
  intro fuel
  induction fuel with
  | zero =>
      intro n h p hp
      cases n with
      | leaf box cs =>
          simp only [QNode.leavesOf, List.mem_singleton] at hp
          subst hp
          exact ⟨subBox_refl box, h⟩
      | node box k0 k1 k2 k3 => exact h.elim
  | succ f ih =>
      intro n h p hp
      cases n with
      | leaf box cs =>
          simp only [QNode.leavesOf, List.mem_singleton] at hp
          subst hp
          exact ⟨subBox_refl box, h⟩
      | node box k0 k1 k2 k3 =>
          obtain ⟨hv, hq0, hq1, hq2, hq3, hw0, hw1, hw2, hw3⟩ := h
          have hsub := childBox_sub box hv
          simp only [QNode.leavesOf, List.mem_append] at hp
          rcases hp with ((hp | hp) | hp) | hp
          · have := ih k0 hw0 p hp
            exact ⟨subBox_trans _ _ _ this.1 (by rw [hq0]; exact hsub.1), this.2⟩
          · have := ih k1 hw1 p hp
            exact ⟨subBox_trans _ _ _ this.1 (by rw [hq1]; exact hsub.2.1), this.2⟩
          · have := ih k2 hw2 p hp
            exact ⟨subBox_trans _ _ _ this.1 (by rw [hq2]; exact hsub.2.2.1), this.2⟩
          · have := ih k3 hw3 p hp
            exact ⟨subBox_trans _ _ _ this.1 (by rw [hq3]; exact hsub.2.2.2), this.2⟩

theorem leaves_cover : ∀ fuel (n : QNode), QNode.WF fuel n →
    ∀ px py, n.qbox.contains px py →
      ∃ p ∈ n.leavesOf, p.1.contains px py := by
  intro fuel
  induction fuel with
  | zero =>
      intro n h px py hpt
      cases n with
      | leaf box cs => exact ⟨(box, cs), by simp [QNode.leavesOf], hpt⟩
      | node box k0 k1 k2 k3 => exact h.elim
  | succ f ih =>
      intro n h px py hpt
      cases n with
      | leaf box cs => exact ⟨(box, cs), by simp [QNode.leavesOf], hpt⟩
      | node box k0 k1 k2 k3 =>
          obtain ⟨hv, hq0, hq1, hq2, hq3, hw0, hw1, hw2, hw3⟩ := h
          rcases childBox_cover box px py hpt with hc | hc | hc | hc
          · obtain ⟨p, hp, hcp⟩ := ih k0 hw0 px py (by rw [hq0]; exact hc)
            exact ⟨p, by simp [QNode.leavesOf, List.mem_append, hp], hcp⟩
          · obtain ⟨p, hp, hcp⟩ := ih k1 hw1 px py (by rw [hq1]; exact hc)
            exact ⟨p, by simp [QNode.leavesOf, List.mem_append, hp], hcp⟩
          · obtain ⟨p, hp, hcp⟩ := ih k2 hw2 px py (by rw [hq2]; exact hc)
            exact ⟨p, by simp [QNode.leavesOf, List.mem_append, hp], hcp⟩
          · obtain ⟨p, hp, hcp⟩ := ih k3 hw3 px py (by rw [hq3]; exact hc)
            exact ⟨p, by simp [QNode.leavesOf, List.mem_append, hp], hcp⟩

/-! ### Storage invariant: a collider reaches every leaf it intersects -/

theorem stored_of_not_intersect (fuel : Nat) (k : QNode) (c : QuadtreeCollider)
    (hwf : QNode.WF fuel k) (hvc : c.aabb.valid)
    (hni : ¬ nodeIntersects k c = true) : Stored c k := by
  intro p hp hint
  exfalso
  have hsub := wf_leaves fuel k hwf p hp
  obtain ⟨px, py, hc, hpbox⟩ :=
    common_point_of_intersects c.aabb p.1 hvc hsub.2 hint
  have hq : k.qbox.contains px py :=
    contains_of_subBox p.1 k.qbox px py hsub.1 hpbox
  exact hni (by rw [nodeIntersects]; exact intersects_of_common_point _ _ px py hc hq)

theorem stored_node_of_parts (c : QuadtreeCollider) (box : AABB)
    (k0 k1 k2 k3 : QNode) (h0 : Stored c k0) (h1 : Stored c k1)
    (h2 : Stored c k2) (h3 : Stored c k3) :
    Stored c (QNode.node box k0 k1 k2 k3) := by
  intro p hp hint
  simp only [QNode.leavesOf, List.mem_append] at hp
  rcases hp with ((hp | hp) | hp) | hp
  exacts [h0 p hp hint, h1 p hp hint, h2 p hp hint, h3 p hp hint]

theorem stored_node_parts (c : QuadtreeCollider) (box : AABB)
    (k0 k1 k2 k3 : QNode) (h : Stored c (QNode.node box k0 k1 k2 k3)) :
    Stored c k0 ∧ Stored c k1 ∧ Stored c k2 ∧ Stored c k3 := by
  refine ⟨fun p hp hint => h p ?_ hint, fun p hp hint => h p ?_ hint,
    fun p hp hint => h p ?_ hint, fun p hp hint => h p ?_ hint⟩ <;>
    simp [QNode.leavesOf, List.mem_append, hp]

theorem distribute_snoc (adder : QNode → QuadtreeCollider → QNode) :
    ∀ (xs : List QuadtreeCollider) (c : QuadtreeCollider)
      (ks : QNode × QNode × QNode × QNode),
      distribute adder (xs ++ [c]) ks =
        distributeStep adder c (distribute adder xs ks) := by
  intro xs
  induction xs with
  | nil => intro c ks; rfl
  | cons x rest ih =>
      intro c ks
      rw [List.cons_append, distribute, distribute, ih]

theorem wf_addIf (f : Nat) (c : QuadtreeCollider) (k : QNode)
    (h : QNode.WF f k) :
    QNode.WF f (addIfIntersects (QNode.add f) c k) := by
  rw [addIfIntersects]
  split
  · exact wf_add f k c h
  · exact h

theorem add_stores : ∀ fuel (n : QNode) (c : QuadtreeCollider),
    QNode.WF fuel n → c.aabb.valid → Stored c (QNode.add fuel n c) := by
  intro fuel
  induction fuel with
  | zero =>
      intro n c hwf hvc
      cases n with
      | leaf box cs =>
          intro p hp _
          simp only [QNode.add, QNode.leavesOf, List.mem_singleton] at hp
          subst hp
          simp
      | node box k0 k1 k2 k3 => exact hwf.elim
  | succ f ih =>
      intro n c hwf hvc
      have hstep : ∀ k : QNode, QNode.WF f k →
          Stored c (addIfIntersects (QNode.add f) c k) := by
        intro k hw
        rw [addIfIntersects]
        split
        · exact ih k c hw hvc
        · exact stored_of_not_intersect f k c hw hvc (by assumption)
      cases n with
      | leaf box cs =>
          by_cases hl : maxLoad ≤ cs.length + 1
          · simp only [QNode.add, if_pos hl]
            rw [distribute_snoc]
            have hbv : box.valid := hwf
            have hv := childBox_valid box hbv
            have hD0 := distribute_preserves (QNode.add f) (QNode.WF f)
              (fun k c2 hk => wf_add f k c2 hk) cs
              (QNode.leaf (childBox0 box) []) (QNode.leaf (childBox1 box) [])
              (QNode.leaf (childBox2 box) []) (QNode.leaf (childBox3 box) [])
              (wf_leaf f _ _ hv.1) (wf_leaf f _ _ hv.2.1)
              (wf_leaf f _ _ hv.2.2.1) (wf_leaf f _ _ hv.2.2.2)
            exact stored_node_of_parts c box _ _ _ _
              (hstep _ hD0.1) (hstep _ hD0.2.1)
              (hstep _ hD0.2.2.1) (hstep _ hD0.2.2.2)
          · simp only [QNode.add, if_neg hl]
            intro p hp _
            simp only [QNode.leavesOf, List.mem_singleton] at hp
            subst hp
            simp
      | node box k0 k1 k2 k3 =>
          obtain ⟨_, _, _, _, _, hw0, hw1, hw2, hw3⟩ := hwf
          exact stored_node_of_parts c box _ _ _ _
            (hstep k0 hw0) (hstep k1 hw1) (hstep k2 hw2) (hstep k3 hw3)

theorem stored_addIf (f : Nat) (k : QNode) (c : QuadtreeCollider)
    (hwf : QNode.WF f k) (hvc : c.aabb.valid) :
    Stored c (addIfIntersects (QNode.add f) c k) := by
  rw [addIfIntersects]
  split
  · exact add_stores f k c hwf hvc
  · exact stored_of_not_intersect f k c hwf hvc (by assumption)

theorem add_keeps_stored : ∀ fuel (n : QNode) (c c2 : QuadtreeCollider),
    QNode.WF fuel n → c2.aabb.valid → Stored c2 n →
    Stored c2 (QNode.add fuel n c) := by
  intro fuel
  induction fuel with
  | zero =>
      intro n c c2 hwf hv2 h
      cases n with
      | leaf box cs =>
          intro p hp hint
          simp only [QNode.add, QNode.leavesOf, List.mem_singleton] at hp
          subst hp
          exact List.mem_append_left _ (h (box, cs) (by simp [QNode.leavesOf]) hint)
      | node box k0 k1 k2 k3 => exact hwf.elim
  | succ f ih =>
      intro n c c2 hwf hv2 h
      have hstep2 : ∀ (k : QNode) (c3 : QuadtreeCollider), QNode.WF f k →
          Stored c2 k → Stored c2 (addIfIntersects (QNode.add f) c3 k) := by
        intro k c3 hw hs
        rw [addIfIntersects]
        split
        · exact ih k c3 c2 hw hv2 hs
        · exact hs
      cases n with
      | leaf box cs =>
          by_cases hl : maxLoad ≤ cs.length + 1
          · by_cases hib : c2.aabb.intersects box = true
            · have hc2cs : c2 ∈ cs := h (box, cs) (by simp [QNode.leavesOf]) hib
              have hbv : box.valid := hwf
              have hv := childBox_valid box hbv
              have hdist : ∀ (cols : List QuadtreeCollider)
                  (ks : QNode × QNode × QNode × QNode),
                  QNode.WF f ks.1 → QNode.WF f ks.2.1 →
                  QNode.WF f ks.2.2.1 → QNode.WF f ks.2.2.2 →
                  c2 ∈ cols →
                  Stored c2 (distribute (QNode.add f) cols ks).1 ∧
                  Stored c2 (distribute (QNode.add f) cols ks).2.1 ∧
                  Stored c2 (distribute (QNode.add f) cols ks).2.2.1 ∧
                  Stored c2 (distribute (QNode.add f) cols ks).2.2.2 := by
                intro cols
                induction cols with
                | nil => intro ks _ _ _ _ hmem; simp at hmem
                | cons d rest ihc =>
                    intro ks hw0 hw1 hw2 hw3 hmem
                    rw [distribute]
                    have hw0' : QNode.WF f (distributeStep (QNode.add f) d ks).1 :=
                      wf_addIf f d ks.1 hw0
                    have hw1' : QNode.WF f (distributeStep (QNode.add f) d ks).2.1 :=
                      wf_addIf f d ks.2.1 hw1
                    have hw2' : QNode.WF f (distributeStep (QNode.add f) d ks).2.2.1 :=
                      wf_addIf f d ks.2.2.1 hw2
                    have hw3' : QNode.WF f (distributeStep (QNode.add f) d ks).2.2.2 :=
                      wf_addIf f d ks.2.2.2 hw3
                    rcases List.mem_cons.mp hmem with rfl | hmem2
                    · have hst0 : Stored c2 (distributeStep (QNode.add f) c2 ks).1 :=
                        stored_addIf f ks.1 c2 hw0 hv2
                      have hst1 : Stored c2 (distributeStep (QNode.add f) c2 ks).2.1 :=
                        stored_addIf f ks.2.1 c2 hw1 hv2
                      have hst2 : Stored c2 (distributeStep (QNode.add f) c2 ks).2.2.1 :=
                        stored_addIf f ks.2.2.1 c2 hw2 hv2
                      have hst3 : Stored c2 (distributeStep (QNode.add f) c2 ks).2.2.2 :=
                        stored_addIf f ks.2.2.2 c2 hw3 hv2
                      have hrest := distribute_preserves4 (QNode.add f)
                        (fun k => QNode.WF f k ∧ Stored c2 k)
                        (fun k => QNode.WF f k ∧ Stored c2 k)
                        (fun k => QNode.WF f k ∧ Stored c2 k)
                        (fun k => QNode.WF f k ∧ Stored c2 k)
                        rest
                        (fun k c3 _ hk => ⟨wf_addIf f c3 k hk.1, hstep2 k c3 hk.1 hk.2⟩)
                        (fun k c3 _ hk => ⟨wf_addIf f c3 k hk.1, hstep2 k c3 hk.1 hk.2⟩)
                        (fun k c3 _ hk => ⟨wf_addIf f c3 k hk.1, hstep2 k c3 hk.1 hk.2⟩)
                        (fun k c3 _ hk => ⟨wf_addIf f c3 k hk.1, hstep2 k c3 hk.1 hk.2⟩)
                        (distributeStep (QNode.add f) c2 ks)
                        ⟨hw0', hst0⟩ ⟨hw1', hst1⟩ ⟨hw2', hst2⟩ ⟨hw3', hst3⟩
                      exact ⟨hrest.1.2, hrest.2.1.2, hrest.2.2.1.2, hrest.2.2.2.2⟩
                    · exact ihc (distributeStep (QNode.add f) d ks)
                        hw0' hw1' hw2' hw3' hmem2
              simp only [QNode.add, if_pos hl]
              have hD := hdist (cs ++ [c])
                (QNode.leaf (childBox0 box) [], QNode.leaf (childBox1 box) [],
                 QNode.leaf (childBox2 box) [], QNode.leaf (childBox3 box) [])
                (wf_leaf f _ _ hv.1) (wf_leaf f _ _ hv.2.1)
                (wf_leaf f _ _ hv.2.2.1) (wf_leaf f _ _ hv.2.2.2)
                (List.mem_append_left _ hc2cs)
              exact stored_node_of_parts c2 box _ _ _ _
                hD.1 hD.2.1 hD.2.2.1 hD.2.2.2
            · have hres_wf : QNode.WF (f + 1)
                  (QNode.add (f + 1) (QNode.leaf box cs) c) :=
                wf_add (f + 1) _ c hwf
              refine stored_of_not_intersect (f + 1) _ c2 hres_wf hv2 ?_
              rw [nodeIntersects, add_qbox]
              exact hib
          · simp only [QNode.add, if_neg hl]
            intro p hp hint
            simp only [QNode.leavesOf, List.mem_singleton] at hp
            subst hp
            exact List.mem_append_left _ (h (box, cs) (by simp [QNode.leavesOf]) hint)
      | node box k0 k1 k2 k3 =>
          obtain ⟨_, _, _, _, _, hw0, hw1, hw2, hw3⟩ := hwf
          obtain ⟨hs0, hs1, hs2, hs3⟩ := stored_node_parts c2 box k0 k1 k2 k3 h
          exact stored_node_of_parts c2 box _ _ _ _
            (hstep2 k0 c hw0 hs0) (hstep2 k1 c hw1 hs1)
            (hstep2 k2 c hw2 hs2) (hstep2 k3 c hw3 hs3)

/-! ### What ends up in the tree: soundness of the stored multiset -/

theorem allCols_add : ∀ fuel (n : QNode) (c x : QuadtreeCollider),
    x ∈ (QNode.add fuel n c).allCols → x ∈ n.allCols ∨ x = c := by
  intro fuel
  induction fuel with
  | zero =>
      intro n c x hx
      cases n with
      | leaf box cs =>
          simp only [QNode.add, QNode.allCols, List.mem_append,
            List.mem_singleton] at hx
          exact hx
      | node box k0 k1 k2 k3 => exact Or.inl hx
  | succ f ih =>
      intro n c x hx
      have haddIf : ∀ (k : QNode) (c3 x2 : QuadtreeCollider),
          x2 ∈ (addIfIntersects (QNode.add f) c3 k).allCols →
          x2 ∈ k.allCols ∨ x2 = c3 := by
        intro k c3 x2 h2
        rw [addIfIntersects] at h2
        by_cases hi : nodeIntersects k c3 = true
        · rw [if_pos hi] at h2
          exact ih k c3 x2 h2
        · rw [if_neg hi] at h2
          exact Or.inl h2
      cases n with
      | leaf box cs =>
          by_cases hl : maxLoad ≤ cs.length + 1
          · simp only [QNode.add, if_pos hl] at hx
            have hD : ∀ (cols : List QuadtreeCollider)
                (ks : QNode × QNode × QNode × QNode) (x2 : QuadtreeCollider),
                (x2 ∈ (distribute (QNode.add f) cols ks).1.allCols ∨
                 x2 ∈ (distribute (QNode.add f) cols ks).2.1.allCols ∨
                 x2 ∈ (distribute (QNode.add f) cols ks).2.2.1.allCols ∨
                 x2 ∈ (distribute (QNode.add f) cols ks).2.2.2.allCols) →
                (x2 ∈ ks.1.allCols ∨ x2 ∈ ks.2.1.allCols ∨
                 x2 ∈ ks.2.2.1.allCols ∨ x2 ∈ ks.2.2.2.allCols) ∨ x2 ∈ cols := by
              intro cols
              induction cols with
              | nil => intro ks x2 h2; exact Or.inl h2
              | cons d rest ihc =>
                  intro ks x2 h2
                  rw [distribute] at h2
                  rcases ihc (distributeStep (QNode.add f) d ks) x2 h2 with hk | hr
                  · rcases hk with hk | hk | hk | hk
                    all_goals
                      rcases haddIf _ d x2 hk with hk2 | rfl
                    · exact Or.inl (Or.inl hk2)
                    · exact Or.inr (by simp)
                    · exact Or.inl (Or.inr (Or.inl hk2))
                    · exact Or.inr (by simp)
                    · exact Or.inl (Or.inr (Or.inr (Or.inl hk2)))
                    · exact Or.inr (by simp)
                    · exact Or.inl (Or.inr (Or.inr (Or.inr hk2)))
                    · exact Or.inr (by simp)
                  · exact Or.inr (by simp [hr])
            simp only [QNode.allCols, List.mem_append] at hx
            have := hD (cs ++ [c])
              (QNode.leaf (childBox0 box) [], QNode.leaf (childBox1 box) [],
               QNode.leaf (childBox2 box) [], QNode.leaf (childBox3 box) [])
              x (by tauto)
            rcases this with hempty | hcs
            · simp [QNode.allCols] at hempty
            · simp only [List.mem_append, List.mem_singleton] at hcs
              exact hcs
          · simp only [QNode.add, if_neg hl] at hx
            simp only [QNode.allCols, List.mem_append, List.mem_singleton] at hx
            exact hx
      | node box k0 k1 k2 k3 =>
          simp only [QNode.add, QNode.allCols, List.mem_append] at hx
          rcases hx with ((hk | hk) | hk) | hk
          · rcases haddIf k0 c x hk with h2 | h2
            · exact Or.inl (by simp [QNode.allCols, List.mem_append, h2])
            · exact Or.inr h2
          · rcases haddIf k1 c x hk with h2 | h2
            · exact Or.inl (by simp [QNode.allCols, List.mem_append, h2])
            · exact Or.inr h2
          · rcases haddIf k2 c x hk with h2 | h2
            · exact Or.inl (by simp [QNode.allCols, List.mem_append, h2])
            · exact Or.inr h2
          · rcases haddIf k3 c x hk with h2 | h2
            · exact Or.inl (by simp [QNode.allCols, List.mem_append, h2])
            · exact Or.inr h2

theorem treeNodup_node_parts (box : AABB) (k0 k1 k2 k3 : QNode)
    (h : TreeNodup (QNode.node box k0 k1 k2 k3)) :
    TreeNodup k0 ∧ TreeNodup k1 ∧ TreeNodup k2 ∧ TreeNodup k3 := by
  refine ⟨fun p hp => h p ?_, fun p hp => h p ?_,
    fun p hp => h p ?_, fun p hp => h p ?_⟩ <;>
    simp [QNode.leavesOf, List.mem_append, hp]

theorem treeNodup_node_of_parts (box : AABB) (k0 k1 k2 k3 : QNode)
    (h0 : TreeNodup k0) (h1 : TreeNodup k1) (h2 : TreeNodup k2)
    (h3 : TreeNodup k3) : TreeNodup (QNode.node box k0 k1 k2 k3) := by
  intro p hp
  simp only [QNode.leavesOf, List.mem_append] at hp
  rcases hp with ((hp | hp) | hp) | hp
  exacts [h0 p hp, h1 p hp, h2 p hp, h3 p hp]

theorem nodup_append_single (cs : List QuadtreeCollider) (c : QuadtreeCollider)
    (hnd : (cs.map QuadtreeCollider.id).Nodup)
    (hx : ∀ x ∈ cs, x.id ≠ c.id) :
    ((cs ++ [c]).map QuadtreeCollider.id).Nodup := by
  rw [List.map_append, List.nodup_append]
  refine ⟨hnd, by simp, ?_⟩
  intro a ha
  simp only [List.mem_map] at ha
  obtain ⟨x, hxm, rfl⟩ := ha
  simp [hx x hxm]

theorem nodup_add : ∀ fuel (n : QNode) (c : QuadtreeCollider),
    TreeNodup n → (∀ x ∈ n.allCols, x.id ≠ c.id) →
    TreeNodup (QNode.add fuel n c) := by
  intro fuel
  induction fuel with
  | zero =>
      intro n c hnd hx
      cases n with
      | leaf box cs =>
          intro p hp
          simp only [QNode.add, QNode.leavesOf, List.mem_singleton] at hp
          subst hp
          exact nodup_append_single cs c
            (hnd (box, cs) (by simp [QNode.leavesOf])) hx
      | node box k0 k1 k2 k3 => exact hnd
  | succ f ih =>
      intro n c hnd hx
      have haddIf : ∀ (k : QNode) (c3 : QuadtreeCollider),
          TreeNodup k → (∀ x ∈ k.allCols, x.id ≠ c3.id) →
          TreeNodup (addIfIntersects (QNode.add f) c3 k) := by
        intro k c3 hk hxk
        rw [addIfIntersects]
        split
        · exact ih k c3 hk hxk
        · exact hk
      have haddIf_cols : ∀ (k : QNode) (c3 x2 : QuadtreeCollider),
          x2 ∈ (addIfIntersects (QNode.add f) c3 k).allCols →
          x2 ∈ k.allCols ∨ x2 = c3 := by
        intro k c3 x2 h2
        rw [addIfIntersects] at h2
        by_cases hi : nodeIntersects k c3 = true
        · rw [if_pos hi] at h2
          exact allCols_add f k c3 x2 h2
        · rw [if_neg hi] at h2
          exact Or.inl h2
      cases n with
      | leaf box cs =>
          by_cases hl : maxLoad ≤ cs.length + 1
          · simp only [QNode.add, if_pos hl]
            have hcsnd : (cs.map QuadtreeCollider.id).Nodup :=
              hnd (box, cs) (by simp [QNode.leavesOf])
            have hcolsnd : ((cs ++ [c]).map QuadtreeCollider.id).Nodup :=
              nodup_append_single cs c hcsnd hx
            have hD : ∀ (cols : List QuadtreeCollider)
                (ks : QNode × QNode × QNode × QNode),
                (cols.map QuadtreeCollider.id).Nodup →
                (TreeNodup ks.1 ∧
                  ∀ x ∈ ks.1.allCols, x.id ∉ cols.map QuadtreeCollider.id) →
                (TreeNodup ks.2.1 ∧
                  ∀ x ∈ ks.2.1.allCols, x.id ∉ cols.map QuadtreeCollider.id) →
                (TreeNodup ks.2.2.1 ∧
                  ∀ x ∈ ks.2.2.1.allCols, x.id ∉ cols.map QuadtreeCollider.id) →
                (TreeNodup ks.2.2.2 ∧
                  ∀ x ∈ ks.2.2.2.allCols, x.id ∉ cols.map QuadtreeCollider.id) →
                TreeNodup (distribute (QNode.add f) cols ks).1 ∧
                TreeNodup (distribute (QNode.add f) cols ks).2.1 ∧
                TreeNodup (distribute (QNode.add f) cols ks).2.2.1 ∧
                TreeNodup (distribute (QNode.add f) cols ks).2.2.2 := by
              intro cols
              induction cols with
              | nil =>
                  intro ks _ h0 h1 h2 h3
                  exact ⟨h0.1, h1.1, h2.1, h3.1⟩
              | cons d rest ihc =>
                  intro ks hcnd h0 h1 h2 h3
                  rw [distribute]
                  have hstep : ∀ comp : QNode,
                      (TreeNodup comp ∧
                        ∀ x ∈ comp.allCols, x.id ∉ (d :: rest).map QuadtreeCollider.id) →
                      (TreeNodup (addIfIntersects (QNode.add f) d comp) ∧
                        ∀ x ∈ (addIfIntersects (QNode.add f) d comp).allCols,
                          x.id ∉ rest.map QuadtreeCollider.id) := by
                    intro comp hcomp
                    refine ⟨haddIf comp d hcomp.1 ?_, ?_⟩
                    · intro x hxm
                      have := hcomp.2 x hxm
                      simp only [List.map_cons, List.mem_cons] at this
                      tauto
                    · intro x hxm
                      rcases haddIf_cols comp d x hxm with h2 | rfl
                      · intro hmem
                        exact hcomp.2 x h2 (by simp [hmem])
                      · simp only [List.map_cons, List.nodup_cons] at hcnd
                        exact hcnd.1
                  exact ihc (distributeStep (QNode.add f) d ks)
                    (by simp only [List.map_cons, List.nodup_cons] at hcnd; exact hcnd.2)
                    (hstep ks.1 h0) (hstep ks.2.1 h1)
                    (hstep ks.2.2.1 h2) (hstep ks.2.2.2 h3)
            have hfresh : ∀ bx : AABB, TreeNodup (QNode.leaf bx []) ∧
                ∀ x ∈ (QNode.leaf bx []).allCols,
                  x.id ∉ (cs ++ [c]).map QuadtreeCollider.id := by
              intro bx
              constructor
              · intro p hp
                simp only [QNode.leavesOf, List.mem_singleton] at hp
                subst hp
                simp
              · intro x hxm
                simp [QNode.allCols] at hxm
            have hres := hD (cs ++ [c])
              (QNode.leaf (childBox0 box) [], QNode.leaf (childBox1 box) [],
               QNode.leaf (childBox2 box) [], QNode.leaf (childBox3 box) [])
              hcolsnd (hfresh _) (hfresh _) (hfresh _) (hfresh _)
            exact treeNodup_node_of_parts box _ _ _ _
              hres.1 hres.2.1 hres.2.2.1 hres.2.2.2
          · simp only [QNode.add, if_neg hl]
            intro p hp
            simp only [QNode.leavesOf, List.mem_singleton] at hp
            subst hp
            exact nodup_append_single cs c
              (hnd (box, cs) (by simp [QNode.leavesOf])) hx
      | node box k0 k1 k2 k3 =>
          obtain ⟨h0, h1, h2, h3⟩ := treeNodup_node_parts box k0 k1 k2 k3 hnd
          have hxk : ∀ (k : QNode), k.allCols ⊆ (QNode.node box k0 k1 k2 k3).allCols →
              ∀ x ∈ k.allCols, x.id ≠ c.id :=
            fun k hsub x hxm => hx x (hsub hxm)
          exact treeNodup_node_of_parts box _ _ _ _
            (haddIf k0 c h0 (hxk k0 (by intro a ha; simp [QNode.allCols, List.mem_append, ha])))
            (haddIf k1 c h1 (hxk k1 (by intro a ha; simp [QNode.allCols, List.mem_append, ha])))
            (haddIf k2 c h2 (hxk k2 (by intro a ha; simp [QNode.allCols, List.mem_append, ha])))
            (haddIf k3 c h3 (hxk k3 (by intro a ha; simp [QNode.allCols, List.mem_append, ha])))

/-! ### Pairs produced by get_nearby_pairs -/

theorem mem_combPairs : ∀ (cs : List QuadtreeCollider) (a b : QuadtreeCollider),
    (a, b) ∈ combPairs cs ↔
      a.aabb.intersects b.aabb = true ∧ [a, b].Sublist cs := by
  intro cs
  induction cs with
  | nil => intro a b; simp [combPairs]
  | cons c rest ih =>
      intro a b
      constructor
      · intro h
        rw [combPairs, List.mem_append] at h
        rcases h with h | h
        · simp only [List.mem_map, List.mem_filter] at h
          obtain ⟨d, ⟨hd, hint⟩, heq⟩ := h
          obtain ⟨rfl, rfl⟩ := Prod.mk.injEq .. ▸ And.intro
            (congrArg Prod.fst heq) (congrArg Prod.snd heq)
          exact ⟨hint, List.Sublist.cons₂ _ (List.singleton_sublist.mpr hd)⟩
        · obtain ⟨hint, hsub⟩ := (ih a b).mp h
          exact ⟨hint, hsub.cons _⟩
      · intro ⟨hint, hsub⟩
        rw [combPairs, List.mem_append]
        cases hsub with
        | cons _ h => exact Or.inr ((ih a b).mpr ⟨hint, h⟩)
        | cons₂ _ h =>
            refine Or.inl ?_
            simp only [List.mem_map, List.mem_filter]
            exact ⟨b, ⟨List.singleton_sublist.mp h, hint⟩, rfl⟩

theorem pair_or_swap_sublist : ∀ (cs : List QuadtreeCollider)
    (a b : QuadtreeCollider), a ∈ cs → b ∈ cs → a ≠ b →
    [a, b].Sublist cs ∨ [b, a].Sublist cs := by
  intro cs
  induction cs with
  | nil => intro a b ha _ _; simp at ha
  | cons c rest ih =>
      intro a b ha hb hne
      rcases List.mem_cons.mp ha with rfl | ha2
      · rcases List.mem_cons.mp hb with rfl | hb2
        · exact absurd rfl hne
        · exact Or.inl (List.Sublist.cons₂ _ (List.singleton_sublist.mpr hb2))
      · rcases List.mem_cons.mp hb with rfl | hb2
        · exact Or.inr (List.Sublist.cons₂ _ (List.singleton_sublist.mpr ha2))
        · exact (ih a b ha2 hb2 hne).imp (fun h => h.cons _) (fun h => h.cons _)

theorem sublist_id_ne (cs : List QuadtreeCollider) (a b : QuadtreeCollider)
    (h : [a, b].Sublist cs) (hnd : (cs.map QuadtreeCollider.id).Nodup) :
    a.id ≠ b.id := by
  have h2 : [a.id, b.id].Sublist (cs.map QuadtreeCollider.id) :=
    h.map QuadtreeCollider.id
  have h3 := hnd.sublist h2
  simp only [List.nodup_cons, List.mem_singleton] at h3
  exact h3.1

theorem orderPair_cases (qa qb a b : QuadtreeCollider)
    (h : orderPair (qa, qb) = (a, b)) :
    (qa = a ∧ qb = b) ∨ (qa = b ∧ qb = a) := by
  rw [orderPair] at h
  split at h
  · right
    exact ⟨(Prod.ext_iff.mp h).2, (Prod.ext_iff.mp h).1⟩
  · left
    exact ⟨(Prod.ext_iff.mp h).1, (Prod.ext_iff.mp h).2⟩

theorem orderPair_or (a b : QuadtreeCollider) :
    orderPair (a, b) = (a, b) ∨ orderPair (a, b) = (b, a) := by
  rw [orderPair]
  split
  · exact Or.inr rfl
  · exact Or.inl rfl

theorem pair_lift (box : AABB) (k0 k1 k2 k3 : QNode)
    (q : QuadtreeCollider × QuadtreeCollider)
    (h : q ∈ k0.nearbyPairs ∨ q ∈ k1.nearbyPairs ∨
      q ∈ k2.nearbyPairs ∨ q ∈ k3.nearbyPairs) :
    orderPair q ∈ (QNode.node box k0 k1 k2 k3).nearbyPairs := by
  simp only [QNode.nearbyPairs, List.mem_dedup, List.mem_append, List.mem_map]
  rcases h with h | h | h | h
  · exact Or.inl (Or.inl (Or.inl ⟨q, h, rfl⟩))
  · exact Or.inl (Or.inl (Or.inr ⟨q, h, rfl⟩))
  · exact Or.inl (Or.inr ⟨q, h, rfl⟩)
  · exact Or.inr ⟨q, h, rfl⟩

theorem pairs_sound : ∀ (n : QNode), TreeNodup n →
    ∀ a b : QuadtreeCollider, (a, b) ∈ n.nearbyPairs →
      a.aabb.intersects b.aabb = true ∧ a ∈ n.allCols ∧ b ∈ n.allCols ∧
      a.id ≠ b.id := by
  intro n
  induction n with
  | leaf box cs =>
      intro hnd a b h
      rw [QNode.nearbyPairs] at h
      obtain ⟨hint, hsub⟩ := (mem_combPairs cs a b).mp h
      have hmem := hsub.subset
      exact ⟨hint, hmem (by simp), hmem (by simp),
        sublist_id_ne cs a b hsub (hnd (box, cs) (by simp [QNode.leavesOf]))⟩
  | node box k0 k1 k2 k3 ih0 ih1 ih2 ih3 =>
      intro hnd a b h
      obtain ⟨h0, h1, h2, h3⟩ := treeNodup_node_parts box k0 k1 k2 k3 hnd
      rw [QNode.nearbyPairs, List.mem_dedup] at h
      have hchild : ∃ q, (q ∈ k0.nearbyPairs ∨ q ∈ k1.nearbyPairs ∨
          q ∈ k2.nearbyPairs ∨ q ∈ k3.nearbyPairs) ∧ orderPair q = (a, b) := by
        simp only [List.mem_append, List.mem_map] at h
        rcases h with ((⟨q, hq, he⟩ | ⟨q, hq, he⟩) | ⟨q, hq, he⟩) | ⟨q, hq, he⟩
        · exact ⟨q, Or.inl hq, he⟩
        · exact ⟨q, Or.inr (Or.inl hq), he⟩
        · exact ⟨q, Or.inr (Or.inr (Or.inl hq)), he⟩
        · exact ⟨q, Or.inr (Or.inr (Or.inr hq)), he⟩
      obtain ⟨⟨qa, qb⟩, hq, he⟩ := hchild
      have hsound : qa.aabb.intersects qb.aabb = true ∧
          qa ∈ (QNode.node box k0 k1 k2 k3).allCols ∧
          qb ∈ (QNode.node box k0 k1 k2 k3).allCols ∧ qa.id ≠ qb.id := by
        rcases hq with hq | hq | hq | hq
        · obtain ⟨hi, hma, hmb, hne⟩ := ih0 h0 qa qb hq
          exact ⟨hi, by simp [QNode.allCols, List.mem_append, hma],
            by simp [QNode.allCols, List.mem_append, hmb], hne⟩
        · obtain ⟨hi, hma, hmb, hne⟩ := ih1 h1 qa qb hq
          exact ⟨hi, by simp [QNode.allCols, List.mem_append, hma],
            by simp [QNode.allCols, List.mem_append, hmb], hne⟩
        · obtain ⟨hi, hma, hmb, hne⟩ := ih2 h2 qa qb hq
          exact ⟨hi, by simp [QNode.allCols, List.mem_append, hma],
            by simp [QNode.allCols, List.mem_append, hmb], hne⟩
        · obtain ⟨hi, hma, hmb, hne⟩ := ih3 h3 qa qb hq
          exact ⟨hi, by simp [QNode.allCols, List.mem_append, hma],
            by simp [QNode.allCols, List.mem_append, hmb], hne⟩
      rcases orderPair_cases qa qb a b he with ⟨rfl, rfl⟩ | ⟨rfl, rfl⟩
      · exact hsound
      · exact ⟨by rw [intersects_comm]; exact hsound.1,
          hsound.2.2.1, hsound.2.1, (hsound.2.2.2).symm⟩

theorem pair_in_combPairs (cs : List QuadtreeCollider)
    (a b : QuadtreeCollider) (ha : a ∈ cs) (hb : b ∈ cs) (hne : a ≠ b)
    (hint : a.aabb.intersects b.aabb = true) :
    (a, b) ∈ combPairs cs ∨ (b, a) ∈ combPairs cs := by
  rcases pair_or_swap_sublist cs a b ha hb hne with h | h
  · exact Or.inl ((mem_combPairs cs a b).mpr ⟨hint, h⟩)
  · exact Or.inr ((mem_combPairs cs b a).mpr
      ⟨by rw [intersects_comm]; exact hint, h⟩)

theorem stored_pair_in_pairs : ∀ fuel (n : QNode), QNode.WF fuel n →
    ∀ (a b : QuadtreeCollider) (px py : ℚ),
      a.aabb.valid → b.aabb.valid →
      a.aabb.contains px py → b.aabb.contains px py →
      n.qbox.contains px py → Stored a n → Stored b n → a.id ≠ b.id →
      (a, b) ∈ n.nearbyPairs ∨ (b, a) ∈ n.nearbyPairs := by
  intro fuel
  induction fuel with
  | zero =>
      intro n hwf a b px py hva hvb hca hcb hcn hsa hsb hid
      cases n with
      | leaf box cs =>
          have hia : a.aabb.intersects box = true :=
            intersects_of_common_point _ _ px py hca hcn
          have hib : b.aabb.intersects box = true :=
            intersects_of_common_point _ _ px py hcb hcn
          have hma : a ∈ cs := hsa (box, cs) (by simp [QNode.leavesOf]) hia
          have hmb : b ∈ cs := hsb (box, cs) (by simp [QNode.leavesOf]) hib
          have hint : a.aabb.intersects b.aabb = true :=
            intersects_of_common_point _ _ px py hca hcb
          exact pair_in_combPairs cs a b hma hmb
            (fun h => hid (h ▸ rfl)) hint
      | node box k0 k1 k2 k3 => exact hwf.elim
  | succ f ih =>
      intro n hwf a b px py hva hvb hca hcb hcn hsa hsb hid
      cases n with
      | leaf box cs =>
          have hia : a.aabb.intersects box = true :=
            intersects_of_common_point _ _ px py hca hcn
          have hib : b.aabb.intersects box = true :=
            intersects_of_common_point _ _ px py hcb hcn
          have hma : a ∈ cs := hsa (box, cs) (by simp [QNode.leavesOf]) hia
          have hmb : b ∈ cs := hsb (box, cs) (by simp [QNode.leavesOf]) hib
          have hint : a.aabb.intersects b.aabb = true :=
            intersects_of_common_point _ _ px py hca hcb
          exact pair_in_combPairs cs a b hma hmb
            (fun h => hid (h ▸ rfl)) hint
      | node box k0 k1 k2 k3 =>
          obtain ⟨hv, hq0, hq1, hq2, hq3, hw0, hw1, hw2, hw3⟩ := hwf
          obtain ⟨ha0, ha1, ha2, ha3⟩ := stored_node_parts a box k0 k1 k2 k3 hsa
          obtain ⟨hb0, hb1, hb2, hb3⟩ := stored_node_parts b box k0 k1 k2 k3 hsb
          have hchild : (a, b) ∈ k0.nearbyPairs ∨ (b, a) ∈ k0.nearbyPairs ∨
              (a, b) ∈ k1.nearbyPairs ∨ (b, a) ∈ k1.nearbyPairs ∨
              (a, b) ∈ k2.nearbyPairs ∨ (b, a) ∈ k2.nearbyPairs ∨
              (a, b) ∈ k3.nearbyPairs ∨ (b, a) ∈ k3.nearbyPairs := by
            rcases childBox_cover box px py hcn with hc | hc | hc | hc
            · rcases ih k0 hw0 a b px py hva hvb hca hcb
                (by rw [hq0]; exact hc) ha0 hb0 hid with h | h
              · exact Or.inl h
              · exact Or.inr (Or.inl h)
            · rcases ih k1 hw1 a b px py hva hvb hca hcb
                (by rw [hq1]; exact hc) ha1 hb1 hid with h | h
              · exact Or.inr (Or.inr (Or.inl h))
              · exact Or.inr (Or.inr (Or.inr (Or.inl h)))
            · rcases ih k2 hw2 a b px py hva hvb hca hcb
                (by rw [hq2]; exact hc) ha2 hb2 hid with h | h
              · exact Or.inr (Or.inr (Or.inr (Or.inr (Or.inl h))))
              · exact Or.inr (Or.inr (Or.inr (Or.inr (Or.inr (Or.inl h)))))
            · rcases ih k3 hw3 a b px py hva hvb hca hcb
                (by rw [hq3]; exact hc) ha3 hb3 hid with h | h
              · exact Or.inr (Or.inr (Or.inr (Or.inr (Or.inr (Or.inr (Or.inl h))))))
              · exact Or.inr (Or.inr (Or.inr (Or.inr (Or.inr (Or.inr (Or.inr h))))))
          have hfin : ∀ q : QuadtreeCollider × QuadtreeCollider,
              (q = (a, b) ∨ q = (b, a)) →
              (q ∈ k0.nearbyPairs ∨ q ∈ k1.nearbyPairs ∨
                q ∈ k2.nearbyPairs ∨ q ∈ k3.nearbyPairs) →
              (a, b) ∈ (QNode.node box k0 k1 k2 k3).nearbyPairs ∨
              (b, a) ∈ (QNode.node box k0 k1 k2 k3).nearbyPairs := by
            intro q hq hmem
            have hlift := pair_lift box k0 k1 k2 k3 q hmem
            rcases hq with rfl | rfl
            · rcases orderPair_or a b with ho | ho
              · exact Or.inl (ho ▸ hlift)
              · exact Or.inr (ho ▸ hlift)
            · rcases orderPair_or b a with ho | ho
              · exact Or.inr (ho ▸ hlift)
              · exact Or.inl (ho ▸ hlift)
          rcases hchild with h | h | h | h | h | h | h | h
          · exact hfin (a, b) (Or.inl rfl) (Or.inl h)
          · exact hfin (b, a) (Or.inr rfl) (Or.inl h)
          · exact hfin (a, b) (Or.inl rfl) (Or.inr (Or.inl h))
          · exact hfin (b, a) (Or.inr rfl) (Or.inr (Or.inl h))
          · exact hfin (a, b) (Or.inl rfl) (Or.inr (Or.inr (Or.inl h)))
          · exact hfin (b, a) (Or.inr rfl) (Or.inr (Or.inr (Or.inl h)))
          · exact hfin (a, b) (Or.inl rfl) (Or.inr (Or.inr (Or.inr h)))
          · exact hfin (b, a) (Or.inr rfl) (Or.inr (Or.inr (Or.inr h)))

theorem orderPair_pos (a b : QuadtreeCollider) (h : b.id < a.id) :
    orderPair (a, b) = (b, a) := by
  rw [orderPair]
  exact if_pos h

theorem orderPair_neg (a b : QuadtreeCollider) (h : ¬ b.id < a.id) :
    orderPair (a, b) = (a, b) := by
  rw [orderPair]
  exact if_neg h

theorem orderPair_idem (p : QuadtreeCollider × QuadtreeCollider) :
    orderPair (orderPair p) = orderPair p := by
  obtain ⟨a, b⟩ := p
  by_cases h : b.id < a.id
  · rw [orderPair_pos a b h]
    exact orderPair_neg b a (Nat.lt_asymm h)
  · rw [orderPair_neg a b h]
    exact orderPair_neg a b h

theorem orderPair_comp (x y : QuadtreeCollider) :
    ((orderPair (x, y)).1 = x ∧ (orderPair (x, y)).2 = y) ∨
    ((orderPair (x, y)).1 = y ∧ (orderPair (x, y)).2 = x) := by
  by_cases h : y.id < x.id
  · rw [orderPair_pos x y h]
    exact Or.inr ⟨rfl, rfl⟩
  · rw [orderPair_neg x y h]
    exact Or.inl ⟨rfl, rfl⟩

theorem orderPair_snd_inj (c d1 d2 : QuadtreeCollider)
    (h : orderPair (c, d1) = orderPair (c, d2)) : d1 = d2 := by
  by_cases h1 : d1.id < c.id <;> by_cases h2 : d2.id < c.id
  · rw [orderPair_pos c d1 h1, orderPair_pos c d2 h2] at h
    exact (Prod.ext_iff.mp h).1
  · rw [orderPair_pos c d1 h1, orderPair_neg c d2 h2] at h
    obtain ⟨e1, e2⟩ := Prod.ext_iff.mp h
    exact e1.trans e2
  · rw [orderPair_neg c d1 h1, orderPair_pos c d2 h2] at h
    obtain ⟨e1, e2⟩ := Prod.ext_iff.mp h
    exact e2.trans e1
  · rw [orderPair_neg c d1 h1, orderPair_neg c d2 h2] at h
    exact (Prod.ext_iff.mp h).2

theorem map_self_of_fixed {α : Type} (f : α → α) :
    ∀ l : List α, (∀ p ∈ l, f p = p) → l.map f = l := by
  intro l
  induction l with
  | nil => intro _; rfl
  | cons x rest ih =>
      intro h
      rw [List.map_cons, h x (by simp), ih (fun p hp => h p (by simp [hp]))]

theorem combPairs_nodup : ∀ (cs : List QuadtreeCollider),
    (cs.map QuadtreeCollider.id).Nodup →
    ((combPairs cs).map orderPair).Nodup := by
  intro cs
  induction cs with
  | nil => intro _; simp [combPairs]
  | cons c rest ih =>
      intro hnd
      rw [List.map_cons, List.nodup_cons] at hnd
      obtain ⟨hc, hrest⟩ := hnd
      rw [combPairs, List.map_append, List.nodup_append]
      refine ⟨?_, ih hrest, ?_⟩
      · rw [List.map_map]
        refine List.Nodup.map_on ?_ ((List.Nodup.of_map _ hrest).filter _)
        intro d1 _ d2 _ h
        exact orderPair_snd_inj c d1 d2 h
      · intro q hq1 hq2
        rw [List.map_map] at hq1
        obtain ⟨d, _, hqd⟩ := List.mem_map.mp hq1
        simp only [Function.comp_apply] at hqd
        obtain ⟨⟨a, b⟩, hab, hqab⟩ := List.mem_map.mp hq2
        obtain ⟨_, hsub⟩ := (mem_combPairs rest a b).mp hab
        have hmemab := hsub.subset
        have hcab : c = a ∨ c = b := by
          rcases orderPair_comp c d with ⟨e1, _⟩ | ⟨_, e2⟩
          · rcases orderPair_comp a b with ⟨f1, _⟩ | ⟨f1, _⟩
            · exact Or.inl (e1.symm.trans (by rw [hqd, ← hqab]) |>.trans f1)
            · exact Or.inr (e1.symm.trans (by rw [hqd, ← hqab]) |>.trans f1)
          · rcases orderPair_comp a b with ⟨_, f2⟩ | ⟨_, f2⟩
            · exact Or.inr (e2.symm.trans (by rw [hqd, ← hqab]) |>.trans f2)
            · exact Or.inl (e2.symm.trans (by rw [hqd, ← hqab]) |>.trans f2)
        apply hc
        rcases hcab with rfl | rfl
        · exact List.mem_map.mpr ⟨c, hmemab (by simp), rfl⟩
        · exact List.mem_map.mpr ⟨c, hmemab (by simp), rfl⟩

theorem pairs_nodup : ∀ (n : QNode), TreeNodup n →
    ((n.nearbyPairs).map orderPair).Nodup := by
  intro n hnd
  cases n with
  | leaf box cs =>
      exact combPairs_nodup cs (hnd (box, cs) (by simp [QNode.leavesOf]))
  | node box k0 k1 k2 k3 =>
      rw [QNode.nearbyPairs]
      rw [map_self_of_fixed orderPair _ ?_]
      · exact List.nodup_dedup _
      · intro p hp
        rw [List.mem_dedup] at hp
        simp only [List.mem_append, List.mem_map] at hp
        rcases hp with ((⟨q, _, he⟩ | ⟨q, _, he⟩) | ⟨q, _, he⟩) | ⟨q, _, he⟩ <;>
          rw [← he, orderPair_idem]

/-! ### Building the tree from the collider list -/

theorem valid_of_sub_valid (b r : AABB) (hb : b.valid) (hsub : b.subBox r) :
    r.valid :=
  ⟨le_trans hsub.1 (le_trans hb.1 hsub.2.1),
   le_trans hsub.2.2.1 (le_trans hb.2 hsub.2.2.2)⟩

theorem foldl_box_sub : ∀ (l : List QuadtreeCollider) (b : AABB),
    b.subBox (l.foldl
      (fun b q =>
        { x_min := min b.x_min q.aabb.x_min, x_max := max b.x_max q.aabb.x_max
          y_min := min b.y_min q.aabb.y_min, y_max := max b.y_max q.aabb.y_max })
      b) ∧
    ∀ q ∈ l, q.aabb.subBox (l.foldl
      (fun b q =>
        { x_min := min b.x_min q.aabb.x_min, x_max := max b.x_max q.aabb.x_max
          y_min := min b.y_min q.aabb.y_min, y_max := max b.y_max q.aabb.y_max })
      b) := by
  intro l
  induction l with
  | nil => intro b; exact ⟨subBox_refl b, by simp⟩
  | cons q rest ih =>
      intro b
      rw [List.foldl_cons]
      have hstep : b.subBox
          { x_min := min b.x_min q.aabb.x_min, x_max := max b.x_max q.aabb.x_max
            y_min := min b.y_min q.aabb.y_min, y_max := max b.y_max q.aabb.y_max } :=
        ⟨min_le_left _ _, le_max_left _ _, min_le_left _ _, le_max_left _ _⟩
      have hq : q.aabb.subBox
          { x_min := min b.x_min q.aabb.x_min, x_max := max b.x_max q.aabb.x_max
            y_min := min b.y_min q.aabb.y_min, y_max := max b.y_max q.aabb.y_max } :=
        ⟨min_le_right _ _, le_max_right _ _, min_le_right _ _, le_max_right _ _⟩
      obtain ⟨ha, hall⟩ := ih
        { x_min := min b.x_min q.aabb.x_min, x_max := max b.x_max q.aabb.x_max
          y_min := min b.y_min q.aabb.y_min, y_max := max b.y_max q.aabb.y_max }
      refine ⟨subBox_trans _ _ _ hstep ha, ?_⟩
      intro q2 hq2
      rcases List.mem_cons.mp hq2 with rfl | hq2
      · exact subBox_trans _ _ _ hq ha
      · exact hall q2 hq2

theorem rootBox_sub (c : QuadtreeCollider) (cs : List QuadtreeCollider) :
    c.aabb.subBox (rootBox c cs) ∧ ∀ q ∈ cs, q.aabb.subBox (rootBox c cs) := by
  rw [rootBox]
  exact foldl_box_sub cs c.aabb

theorem foldl_add_wf : ∀ (l : List QuadtreeCollider) (t : QNode),
    QNode.WF maxDepth t →
    QNode.WF maxDepth (l.foldl (fun t q => QNode.add maxDepth t q) t) := by
  intro l
  induction l with
  | nil => intro t h; exact h
  | cons q rest ih => intro t h; exact ih _ (wf_add maxDepth t q h)

theorem foldl_add_qbox : ∀ (l : List QuadtreeCollider) (t : QNode),
    (l.foldl (fun t q => QNode.add maxDepth t q) t).qbox = t.qbox := by
  intro l
  induction l with
  | nil => intro t; rfl
  | cons q rest ih => intro t; rw [List.foldl_cons, ih, add_qbox]

theorem foldl_add_stored : ∀ (l : List QuadtreeCollider) (t : QNode)
    (a : QuadtreeCollider), QNode.WF maxDepth t → a.aabb.valid →
    Stored a t →
    Stored a (l.foldl (fun t q => QNode.add maxDepth t q) t) := by
  intro l
  induction l with
  | nil => intro t a _ _ h; exact h
  | cons q rest ih =>
      intro t a hwf hva h
      exact ih _ a (wf_add maxDepth t q hwf) hva
        (add_keeps_stored maxDepth t q a hwf hva h)

theorem foldl_add_stores : ∀ (l : List QuadtreeCollider) (t : QNode)
    (a : QuadtreeCollider), QNode.WF maxDepth t → a ∈ l → a.aabb.valid →
    Stored a (l.foldl (fun t q => QNode.add maxDepth t q) t) := by
  intro l
  induction l with
  | nil => intro t a _ ha _; simp at ha
  | cons q rest ih =>
      intro t a hwf ha hva
      rcases List.mem_cons.mp ha with rfl | ha2
      · exact foldl_add_stored rest _ a (wf_add maxDepth t a hwf) hva
          (add_stores maxDepth t a hwf hva)
      · exact ih _ a (wf_add maxDepth t q hwf) ha2 hva

theorem foldl_add_allCols : ∀ (l : List QuadtreeCollider) (t : QNode)
    (x : QuadtreeCollider),
    x ∈ (l.foldl (fun t q => QNode.add maxDepth t q) t).allCols →
    x ∈ t.allCols ∨ x ∈ l := by
  intro l
  induction l with
  | nil => intro t x h; exact Or.inl h
  | cons q rest ih =>
      intro t x h
      rcases ih _ x h with h2 | h2
      · rcases allCols_add maxDepth t q x h2 with h3 | rfl
        · exact Or.inl h3
        · exact Or.inr (by simp)
      · exact Or.inr (by simp [h2])

theorem foldl_add_nodup : ∀ (l : List QuadtreeCollider) (t : QNode),
    TreeNodup t → (l.map QuadtreeCollider.id).Nodup →
    (∀ x ∈ t.allCols, x.id ∉ l.map QuadtreeCollider.id) →
    TreeNodup (l.foldl (fun t q => QNode.add maxDepth t q) t) := by
  intro l
  induction l with
  | nil => intro t h _ _; exact h
  | cons q rest ih =>
      intro t hnd hlnd hx
      rw [List.map_cons, List.nodup_cons] at hlnd
      refine ih _ (nodup_add maxDepth t q hnd ?_) hlnd.2 ?_
      · intro x hxm
        have := hx x hxm
        simp only [List.map_cons, List.mem_cons] at this
        tauto
      · intro x hxm
        rcases allCols_add maxDepth t q x hxm with h2 | rfl
        · have := hx x h2
          simp only [List.map_cons, List.mem_cons] at this
          intro hmem
          exact this (Or.inr hmem)
        · exact hlnd.1

/-- C2: for every non-empty collider list whose boxes are genuine bounding
boxes and whose identities are distinct, `Quadtree(colliders)`'s
`get_nearby_pairs()` agrees with brute-force pairwise AABB intersection
testing (`combPairs`, i.e. `itertools.combinations` filtered by
intersection): every returned pair is a distinct-identity, AABB-intersecting
pair of input colliders and appears in the brute-force list up to
orientation; every brute-force pair is returned up to orientation — even
when boxes straddle quadrant split lines and sit in several leaves — and
the returned list has no duplicates up to pair orientation. -/
theorem quadtree_pairs_complete (colliders : List QuadtreeCollider)
    (t : QNode) (hinit : Quadtree.init colliders = .ok t)
    (hvalid : ∀ q ∈ colliders, q.aabb.valid)
    (hids : (colliders.map QuadtreeCollider.id).Nodup) :
    (∀ a b : QuadtreeCollider, (a, b) ∈ t.nearbyPairs →
      a ∈ colliders ∧ b ∈ colliders ∧ a.id ≠ b.id ∧
      a.aabb.intersects b.aabb = true ∧
      ((a, b) ∈ combPairs colliders ∨ (b, a) ∈ combPairs colliders)) ∧
    (∀ a b : QuadtreeCollider, (a, b) ∈ combPairs colliders →
      (a, b) ∈ t.nearbyPairs ∨ (b, a) ∈ t.nearbyPairs) ∧
    (t.nearbyPairs.map orderPair).Nodup := by
  cases colliders with
  | nil => cases hinit
  | cons c cs =>
      rw [Quadtree.init] at hinit
      injection hinit with hinit
      subst hinit
      have hvc : c.aabb.valid := hvalid c (by simp)
      have hvroot : (rootBox c cs).valid :=
        valid_of_sub_valid c.aabb _ hvc (rootBox_sub c cs).1
      have hwf0 : QNode.WF maxDepth (QNode.leaf (rootBox c cs) []) :=
        wf_leaf _ _ _ hvroot
      have hT_wf := foldl_add_wf (c :: cs) _ hwf0
      have hT_qbox := foldl_add_qbox (c :: cs) (QNode.leaf (rootBox c cs) [])
      have hT_nodup : TreeNodup
          ((c :: cs).foldl (fun t q => QNode.add maxDepth t q)
            (QNode.leaf (rootBox c cs) [])) := by
        refine foldl_add_nodup (c :: cs) _ ?_ hids ?_
        · intro p hp
          simp only [QNode.leavesOf, List.mem_singleton] at hp
          subst hp
          simp
        · intro x hxm
          simp [QNode.allCols] at hxm
      have hT_allCols : ∀ x ∈ ((c :: cs).foldl
          (fun t q => QNode.add maxDepth t q)
          (QNode.leaf (rootBox c cs) [])).allCols, x ∈ c :: cs := by
        intro x hxm
        rcases foldl_add_allCols (c :: cs) _ x hxm with h2 | h2
        · simp [QNode.allCols] at h2
        · exact h2
      have hT_stored : ∀ a ∈ c :: cs, Stored a
          ((c :: cs).foldl (fun t q => QNode.add maxDepth t q)
            (QNode.leaf (rootBox c cs) [])) :=
        fun a ha => foldl_add_stores (c :: cs) _ a hwf0 ha (hvalid a ha)
      refine ⟨?_, ?_, pairs_nodup _ hT_nodup⟩
      · intro a b h
        obtain ⟨hint, hma, hmb, hne⟩ := pairs_sound _ hT_nodup a b h
        have hma2 := hT_allCols a hma
        have hmb2 := hT_allCols b hmb
        exact ⟨hma2, hmb2, hne, hint,
          pair_in_combPairs (c :: cs) a b hma2 hmb2
            (fun he => hne (he ▸ rfl)) hint⟩
      · intro a b h
        obtain ⟨hint, hsub⟩ := (mem_combPairs (c :: cs) a b).mp h
        have hma : a ∈ c :: cs := hsub.subset (by simp)
        have hmb : b ∈ c :: cs := hsub.subset (by simp)
        have hva := hvalid a hma
        have hvb := hvalid b hmb
        have hne : a.id ≠ b.id := sublist_id_ne (c :: cs) a b hsub hids
        obtain ⟨px, py, hca, hcb⟩ :=
          common_point_of_intersects a.aabb b.aabb hva hvb hint
        have hasub : a.aabb.subBox (rootBox c cs) := by
          rcases List.mem_cons.mp hma with rfl | hma2
          · exact (rootBox_sub a cs).1
          · exact (rootBox_sub c cs).2 a hma2
        have hcroot : (rootBox c cs).contains px py :=
          contains_of_subBox a.aabb _ px py hasub hca
        refine stored_pair_in_pairs maxDepth _ hT_wf a b px py
          hva hvb hca hcb ?_ (hT_stored a hma) (hT_stored b hmb) hne
        rw [hT_qbox]
        exact hcroot

/-- Witness for C2 at a concrete input: three colliders, two of which
overlap, built into a quadtree (which stays a single leaf at this size). -/
theorem quadtree_pairs_complete_witness :
    (∀ a b : QuadtreeCollider,
      (a, b) ∈ (QNode.leaf
        (rootBox (mkQC 0 0 2 0 2) [mkQC 1 1 3 1 3, mkQC 2 10 12 10 12])
        [mkQC 0 0 2 0 2, mkQC 1 1 3 1 3, mkQC 2 10 12 10 12]).nearbyPairs →
      a ∈ [mkQC 0 0 2 0 2, mkQC 1 1 3 1 3, mkQC 2 10 12 10 12] ∧
      b ∈ [mkQC 0 0 2 0 2, mkQC 1 1 3 1 3, mkQC 2 10 12 10 12] ∧
      a.id ≠ b.id ∧ a.aabb.intersects b.aabb = true ∧
      ((a, b) ∈ combPairs [mkQC 0 0 2 0 2, mkQC 1 1 3 1 3, mkQC 2 10 12 10 12] ∨
       (b, a) ∈ combPairs [mkQC 0 0 2 0 2, mkQC 1 1 3 1 3, mkQC 2 10 12 10 12])) ∧
    (∀ a b : QuadtreeCollider,
      (a, b) ∈ combPairs [mkQC 0 0 2 0 2, mkQC 1 1 3 1 3, mkQC 2 10 12 10 12] →
      (a, b) ∈ (QNode.leaf
        (rootBox (mkQC 0 0 2 0 2) [mkQC 1 1 3 1 3, mkQC 2 10 12 10 12])
        [mkQC 0 0 2 0 2, mkQC 1 1 3 1 3, mkQC 2 10 12 10 12]).nearbyPairs ∨
      (b, a) ∈ (QNode.leaf
        (rootBox (mkQC 0 0 2 0 2) [mkQC 1 1 3 1 3, mkQC 2 10 12 10 12])
        [mkQC 0 0 2 0 2, mkQC 1 1 3 1 3, mkQC 2 10 12 10 12]).nearbyPairs) ∧
    ((QNode.leaf
        (rootBox (mkQC 0 0 2 0 2) [mkQC 1 1 3 1 3, mkQC 2 10 12 10 12])
        [mkQC 0 0 2 0 2, mkQC 1 1 3 1 3, mkQC 2 10 12 10 12]).nearbyPairs.map
      orderPair).Nodup :=
  quadtree_pairs_complete
    [mkQC 0 0 2 0 2, mkQC 1 1 3 1 3, mkQC 2 10 12 10 12]
    (QNode.leaf
      (rootBox (mkQC 0 0 2 0 2) [mkQC 1 1 3 1 3, mkQC 2 10 12 10 12])
      [mkQC 0 0 2 0 2, mkQC 1 1 3 1 3, mkQC 2 10 12 10 12])
    rfl
    (by
      intro q hq
      simp only [List.mem_cons, List.not_mem_nil, or_false] at hq
      rcases hq with rfl | rfl | rfl <;> norm_num [mkQC, AABB.valid])
    (by decide)
